import Mathlib

/-!
Verification of the schedule-generation and pensum-graph core of the Uni-App
repository.  The definitions below are a shallow embedding of the Python
sources `app/models/clase.py`, `app/models/horario.py`, `app/models/materia.py`,
`app/services/schedule_service.py` and `app/services/pensum_service.py`.
Machine integers are modelled as `Nat`/`Int`, Python lists as `List`,
insertion-ordered dicts as association lists, and fallible lookups as
`Option`.
-/

namespace UniApp

/-! ## Time blocks (`app/models/clase.py`) -/

/-- Days of the week, `DayOfWeek` in `clase.py`. -/
inductive DayOfWeek
  | monday | tuesday | wednesday | thursday | friday | saturday | sunday
deriving DecidableEq, Repr

/-- The single-letter tag of each day (the `.value` of the Python enum). -/
def DayOfWeek.value : DayOfWeek → String
  | .monday => "L"
  | .tuesday => "M"
  | .wednesday => "W"
  | .thursday => "J"
  | .friday => "V"
  | .saturday => "S"
  | .sunday => "D"

/-- A time block for a specific day (`BloqueHorario`).  The Python model keeps
`start`/`end` as "HH:MM" strings; `end` is a Lean keyword so the field is
called `ends`. -/
structure BloqueHorario where
  day : DayOfWeek
  start : String
  ends : String
deriving DecidableEq, Repr

/-- Decimal value of a digit string, `int(...)` on the digit strings produced
by splitting a well-formed "HH:MM" time. -/
def digitsVal (cs : List Char) : Nat :=
  cs.foldl (fun acc c => acc * 10 + (c.toNat - 48)) 0

/-- Split a character list at the first colon. -/
def splitColon : List Char → List Char × List Char
  | [] => ([], [])
  | c :: rest =>
    if c = ':' then ([], rest)
    else
      let r := splitColon rest
      (c :: r.1, r.2)

/-- `BloqueHorario._time_to_minutes`: convert "HH:MM" to minutes since
midnight (`hours * 60 + minutes` after splitting on the colon).  On
well-formed times this agrees with the Python `map(int, s.split(':'))`;
ill-formed times raise in Python and are never produced here. -/
def time_to_minutes (s : String) : Nat :=
  let p := splitColon s.data
  60 * digitsVal p.1 + digitsVal p.2

/-- `BloqueHorario.get_start_minutes`. -/
def BloqueHorario.get_start_minutes (b : BloqueHorario) : Nat :=
  time_to_minutes b.start

/-- `BloqueHorario.get_end_minutes`. -/
def BloqueHorario.get_end_minutes (b : BloqueHorario) : Nat :=
  time_to_minutes b.ends

/-- `BloqueHorario.overlaps_with`: same day and intervals intersect
(half-open test exactly as in the source: not (end1 <= start2 or
end2 <= start1)). -/
def BloqueHorario.overlaps_with (b o : BloqueHorario) : Bool :=
  if b.day = o.day then
    !(decide (b.get_end_minutes ≤ o.get_start_minutes) ||
      decide (o.get_end_minutes ≤ b.get_start_minutes))
  else false

/-! ## Class sections (`Clase`) -/

/-- A class section for a course (`Clase`). -/
structure Clase where
  materia_code : String
  class_code : String
  schedule : List BloqueHorario
  professor : Option String := none
  location : Option String := none
deriving DecidableEq, Repr

/-- `Clase.conflicts_with`: true if any pair of blocks of the two sections
overlaps (the Python double loop with early return). -/
def Clase.conflicts_with (c o : Clase) : Bool :=
  c.schedule.any (fun b => o.schedule.any (fun ob => b.overlaps_with ob))

/-- `Clase.conflicts_with_blocks`: true if any schedule block overlaps any of
the given blocks. -/
def Clase.conflicts_with_blocks (c : Clase) (blocks : List BloqueHorario) : Bool :=
  c.schedule.any (fun b => blocks.any (fun bl => b.overlaps_with bl))

/-! ## Time-slot preferences (`app/models/horario.py`) -/

/-- `FranjaStatus`. -/
inductive FranjaStatus
  | blocked
  | preferred
deriving DecidableEq, Repr

/-- A time-slot preference (`Franja`). -/
structure Franja where
  day : DayOfWeek
  start : String
  ends : String
  status : FranjaStatus
deriving DecidableEq, Repr

/-- `Franja.to_bloque`. -/
def Franja.to_bloque (f : Franja) : BloqueHorario :=
  { day := f.day, start := f.start, ends := f.ends }

/-- A valid schedule combination (`HorarioCombination`) with its scoring
metric fields and their model defaults. -/
structure HorarioCombination where
  id : String
  clases : List Clase
  total_credits : Nat := 0
  free_days : Nat := 0
  gaps_count : Nat := 0
  gaps_minutes : Nat := 0
  preferred_slots_used : Nat := 0
  earliest_start : String := "23:59"
  latest_end : String := "00:00"
deriving DecidableEq, Repr

/-! ## Metrics (`HorarioCombination.calculate_metrics`) -/

/-- The weekday universe used for `free_days` (Sunday excluded), the Python
set literal. -/
def weekdayTags : List String := ["L", "M", "W", "J", "V", "S"]

/-- One step of building the insertion-ordered `days_used` dict: append the
block to its day entry, or append a fresh entry at the end. -/
def addToDay : List (String × List BloqueHorario) → BloqueHorario →
    List (String × List BloqueHorario)
  | [], b => [(b.day.value, [b])]
  | (d, bs) :: rest, b =>
    if d = b.day.value then (d, bs ++ [b]) :: rest
    else (d, bs) :: addToDay rest b

/-- The `days_used` dict of `calculate_metrics`: all blocks of all sections
grouped by day tag, in insertion order. -/
def daysUsed (clases : List Clase) : List (String × List BloqueHorario) :=
  (clases.flatMap (·.schedule)).foldl addToDay []

/-- Stable sort of a day's blocks by start time (Python `sorted` with a
start-minutes key).  Python's Timsort is stable, and a stable sort under a
total preorder is uniquely determined, so the stable insertion sort below
produces the same list. -/
def sortBlocks (bs : List BloqueHorario) : List BloqueHorario :=
  List.insertionSort (fun a b => a.get_start_minutes ≤ b.get_start_minutes) bs

/-- Gap accumulation over consecutive pairs of an already-sorted day:
a positive idle interval counts one gap of that length. -/
def gapsAux (prev : BloqueHorario) : List BloqueHorario → Nat × Nat
  | [] => (0, 0)
  | nxt :: rest =>
    let g := gapsAux nxt rest
    let gap : Int := (nxt.get_start_minutes : Int) - (prev.get_end_minutes : Int)
    if gap > 0 then (g.1 + 1, g.2 + gap.toNat) else g

/-- Gaps (count, minutes) of one sorted day. -/
def dayGaps : List BloqueHorario → Nat × Nat
  | [] => (0, 0)
  | b :: rest => gapsAux b rest

/-- Accumulator of the per-day loop of `calculate_metrics`. -/
structure MetricsAcc where
  gaps : Nat
  gapMin : Nat
  earliest : Nat
  latest : Nat

/-- One iteration of the per-day loop: sort the day's blocks, update the
earliest/latest bounds from the first/last block, add the day's gaps. -/
def metricsStep (acc : MetricsAcc) (entry : String × List BloqueHorario) : MetricsAcc :=
  let sorted := sortBlocks entry.2
  let e := match sorted.head? with
    | some b => min acc.earliest b.get_start_minutes
    | none => acc.earliest
  let l := match sorted.getLast? with
    | some b => max acc.latest b.get_end_minutes
    | none => acc.latest
  let g := dayGaps sorted
  { gaps := acc.gaps + g.1, gapMin := acc.gapMin + g.2, earliest := e, latest := l }

/-- Zero-padded rendering of minutes since midnight as "HH:MM" (the Python
f-string with 02d fields). -/
def minutesToHHMM (n : Nat) : String :=
  let pad := fun (m : Nat) => if m < 10 then "0" ++ toString m else toString m
  pad (n / 60) ++ ":" ++ pad (n % 60)

/-- Whether a block falls within a preferred slot: same day, nested interval. -/
def prefMatches (b : BloqueHorario) (f : Franja) : Bool :=
  decide (b.day = f.to_bloque.day) &&
  decide (b.get_start_minutes ≥ f.to_bloque.get_start_minutes) &&
  decide (b.get_end_minutes ≤ f.to_bloque.get_end_minutes)

/-- The inner preference loop with its break: stop at the first preferred
slot that contains the block. -/
def firstPrefMatch (b : BloqueHorario) : List Franja → Bool
  | [] => false
  | f :: rest => if prefMatches b f then true else firstPrefMatch b rest

/-- The preferred-slot counting loop over every block of every section. -/
def countPreferred (prefs : List Franja) : List BloqueHorario → Nat
  | [] => 0
  | b :: rest => (if firstPrefMatch b prefs then 1 else 0) + countPreferred prefs rest

/-- `HorarioCombination.calculate_metrics`: recompute all quality metrics.
With no classes the function is a no-op; the preferred-slot count is only
recomputed when the preference list is non-empty (the Python truthiness test
on `franjas`). -/
def HorarioCombination.calculate_metrics (c : HorarioCombination)
    (franjas : List Franja) : HorarioCombination :=
  if c.clases.isEmpty then c
  else
    let du := daysUsed c.clases
    let fd := (weekdayTags.filter (fun d => du.all (fun p => p.1 != d))).length
    let m := du.foldl metricsStep { gaps := 0, gapMin := 0, earliest := 24 * 60, latest := 0 }
    let c1 := { c with
      free_days := fd
      gaps_count := m.gaps
      gaps_minutes := m.gapMin
      earliest_start := minutesToHHMM m.earliest
      latest_end := minutesToHHMM m.latest }
    if franjas.isEmpty then c1
    else
      let preferredF := franjas.filter (fun f => f.status = FranjaStatus.preferred)
      { c1 with
        preferred_slots_used := countPreferred preferredF (c.clases.flatMap (·.schedule)) }

/-! ## Combination generation (`ScheduleService.generate_combinations`) -/

/-- `itertools.product` over a list of candidate lists, leftmost factor
varying slowest. -/
def productList {α : Type} : List (List α) → List (List α)
  | [] => [[]]
  | l :: ls => l.flatMap (fun x => (productList ls).map (fun rest => x :: rest))

/-- The internal-conflict double loop with its breaks: some earlier section
conflicts with some later one. -/
def anyPairConflict : List Clase → Bool
  | [] => false
  | c :: rest => rest.any (fun o => c.conflicts_with o) || anyPairConflict rest

/-- The Python guard `max_combinations and len(valid_combinations) >=
max_combinations`: `None` and `0` are both falsy, so they never stop
generation. -/
def limitHit (limit : Option Int) (n : Nat) : Bool :=
  match limit with
  | none => false
  | some l => if l = 0 then false else decide ((n : Int) ≥ l)

/-- Result record of `generate_combinations`. -/
structure GenResult where
  combinations : List HorarioCombination
  total_generated : Nat
  total_possible : Nat
  total_checked : Nat
  warning : Option String
deriving Repr

/-- The generation loop over the Cartesian product.  Each visited tuple
increments `checked` first; the limit test then either breaks or the tuple is
pruned by the internal-conflict and blocked-slot tests; surviving tuples
become combinations with freshly supplied ids (`str(uuid.uuid4())[:8]` is
modelled by the caller-supplied `idGen` stream) and immediately computed
metrics.  `total_credits` is 0: the source sums `clase.materia_code` filtered
by `isinstance(clase.materia_code, int)`, and `materia_code` is always a
string, so the sum is empty and the trailing `or 0` yields 0. -/
def genLoop (idGen : Nat → String) (blocked : List BloqueHorario)
    (franjas : List Franja) (limit : Option Int) :
    List (List Clase) → List HorarioCombination → Nat →
    List HorarioCombination × Nat
  | [], acc, checked => (acc, checked)
  | combo :: rest, acc, checked =>
    let checked1 := checked + 1
    if limitHit limit acc.length then (acc, checked1)
    else if anyPairConflict combo then genLoop idGen blocked franjas limit rest acc checked1
    else if combo.any (fun c => c.conflicts_with_blocks blocked) then
      genLoop idGen blocked franjas limit rest acc checked1
    else
      let comb := HorarioCombination.calculate_metrics
        { id := idGen acc.length, clases := combo } franjas
      genLoop idGen blocked franjas limit rest (acc ++ [comb]) checked1

/-- `ScheduleService.COMBINATION_WARNING_THRESHOLD`. -/
def COMBINATION_WARNING_THRESHOLD : Nat := 1000

/-- The blocked time slots extracted from the preference list (line 117 of
`schedule_service.py`). -/
def blockedSlots (franjas : List Franja) : List BloqueHorario :=
  (franjas.filter (fun f => f.status = FranjaStatus.blocked)).map Franja.to_bloque

/-- `ScheduleService.generate_combinations`.  The caller-supplied,
insertion-ordered course map is a list of (course code, candidate sections)
pairs; `idGen` supplies the uuid-derived ids. -/
def generate_combinations (idGen : Nat → String)
    (clases_by_materia : List (String × List Clase))
    (franjas : List Franja) (max_combinations : Option Int) : GenResult :=
  let blocked := blockedSlots franjas
  let class_options := clases_by_materia.map (·.2)
  let total_possible := class_options.foldl
    (fun acc options => acc * (if options.isEmpty then 1 else options.length)) 1
  let warning := if total_possible > COMBINATION_WARNING_THRESHOLD then
      some ("Large number of possible combinations (" ++ toString total_possible ++
        "). Generation may take a while.")
    else none
  let r := genLoop idGen blocked franjas max_combinations (productList class_options) [] 0
  { combinations := r.1
    total_generated := r.1.length
    total_possible := total_possible
    total_checked := r.2
    warning := warning }

/-! ## Filtering and sorting (`ScheduleService.filter_combinations`) -/

/-- The recognized filter options.  Absent dict keys and explicit `None`
values are both `none`; the time bounds keep their string form because the
source tests their truthiness (empty string means no filter). -/
structure FilterOptions where
  min_free_days : Option Int := none
  max_gaps : Option Int := none
  max_gap_minutes : Option Int := none
  earliest_start : Option String := none
  latest_end : Option String := none
  sort_by : Option String := none
  sort_order : Option String := none

/-- The five conjunctive filters of `filter_combinations`, applied in source
order. -/
def applyFilters (combinations : List HorarioCombination)
    (filters : FilterOptions) : List HorarioCombination :=
  let f1 := match filters.min_free_days with
    | some v => combinations.filter (fun c => decide ((c.free_days : Int) ≥ v))
    | none => combinations
  let f2 := match filters.max_gaps with
    | some v => f1.filter (fun c => decide ((c.gaps_count : Int) ≤ v))
    | none => f1
  let f3 := match filters.max_gap_minutes with
    | some v => f2.filter (fun c => decide ((c.gaps_minutes : Int) ≤ v))
    | none => f2
  let f4 := match filters.earliest_start with
    | some s =>
      if s = "" then f3
      else f3.filter (fun c => decide (time_to_minutes c.earliest_start ≥ time_to_minutes s))
    | none => f3
  match filters.latest_end with
  | some s =>
    if s = "" then f4
    else f4.filter (fun c => decide (time_to_minutes c.latest_end ≤ time_to_minutes s))
  | none => f4

/-- Python `list.sort(key=k, reverse=rev)`: a stable sort, by the key
ascending, or by the key descending when `rev` is set.  A stable sort under a
total preorder is uniquely determined, so the stable insertion sort matches
Timsort's output. -/
def pySort (key : HorarioCombination → Int) (rev : Bool)
    (l : List HorarioCombination) : List HorarioCombination :=
  if rev then List.insertionSort (fun a b => key b ≤ key a) l
  else List.insertionSort (fun a b => key a ≤ key b) l

/-- `ScheduleService.filter_combinations`.  The sort-key closures in the
source capture the local variable `reverse` by reference, and for the gap
metrics `reverse` is reassigned to `sort_order == 'asc'` before `sort`
executes, so the closures read the reassigned value: `rev` below is that
final value for every key. -/
def filter_combinations (combinations : List HorarioCombination)
    (filters : FilterOptions) : List HorarioCombination :=
  let filtered := applyFilters combinations filters
  let sb := filters.sort_by.getD "free_days"
  let so := filters.sort_order.getD "desc"
  let rev := if sb = "gaps_count" ∨ sb = "gaps_minutes" then
      decide (so = "asc")
    else decide (so = "desc")
  let key : Option (HorarioCombination → Int) :=
    if sb = "free_days" then some (fun c => (c.free_days : Int))
    else if sb = "gaps_count" then
      some (fun c => if rev then -(c.gaps_count : Int) else (c.gaps_count : Int))
    else if sb = "gaps_minutes" then
      some (fun c => if rev then -(c.gaps_minutes : Int) else (c.gaps_minutes : Int))
    else if sb = "preferred_slots" then some (fun c => (c.preferred_slots_used : Int))
    else if sb = "earliest_start" then some (fun c => (time_to_minutes c.earliest_start : Int))
    else if sb = "latest_end" then some (fun c => (time_to_minutes c.latest_end : Int))
    else none
  match key with
  | some k => pySort k rev filtered
  | none => filtered

/-! ## Courses and catalog (`app/models/materia.py`) -/

/-- A course in the pensum (`Materia`).  The UI-only fields `color`, `status`
and `grade` play no part in the verified operations and are omitted. -/
structure Materia where
  code : String
  name : String
  credits : Nat
  semester : Nat
  prerequisites : List String := []
  corequisites : List String := []
deriving DecidableEq, Repr

/-- The course catalog (`Pensum`). -/
structure Pensum where
  materias : List Materia
  name : String := "Mi Pensum"
  total_credits : Nat := 0
deriving DecidableEq, Repr

/-- Uppercase an ASCII letter. -/
def upChar (c : Char) : Char :=
  if 'a' ≤ c ∧ c ≤ 'z' then Char.ofNat (c.toNat - 32) else c

/-- Python `str.upper()` on the ASCII course codes this system handles. -/
def pyUpper (s : String) : String :=
  String.mk (s.data.map upChar)

/-- `Pensum.get_materia`: uppercase the query and return the first course
with that code. -/
def Pensum.get_materia (p : Pensum) (code : String) : Option Materia :=
  p.materias.find? (fun m => m.code = pyUpper code)

/-! ## Cycle detection (`PensumService.detect_circular_dependencies`) -/

/-- The node set of the dependency graph: the distinct course codes (the
Python set comprehension, here in first-occurrence order). -/
def pensumCodes (p : Pensum) : List String :=
  (p.materias.map (·.code)).dedup

/-- The directed edge list, requirement to dependent, built in the source
order: for every course, every prerequisite and corequisite that exists in
the catalog contributes one edge. -/
def pensumEdges (p : Pensum) : List (String × String) :=
  let codes := pensumCodes p
  p.materias.flatMap (fun m =>
    ((m.prerequisites ++ m.corequisites).filter (fun pr => codes.contains pr)).map
      (fun pr => (pr, m.code)))

/-- The adjacency list `graph[u]` in its construction order. -/
def graphOf (E : List (String × String)) (u : String) : List String :=
  (E.filter (fun e => e.1 = u)).map (·.2)

/-- The initial in-degree map: the number of edges into each node. -/
def initIndeg (E : List (String × String)) (v : String) : Int :=
  ((E.map (·.2)).count v : Int)

/-- One neighbor visit of Kahn's algorithm: decrement the neighbor's
in-degree, and append it to the queue when the decrement reaches zero. -/
def decStep (st : (String → Int) × List String) (n : String) :
    (String → Int) × List String :=
  let d := fun v => if v = n then st.1 v - 1 else st.1 v
  if st.1 n - 1 = 0 then (d, st.2 ++ [n]) else (d, st.2)

/-- The Kahn worklist loop.  Each iteration pops the queue head, visits its
neighbors and records the node in the processing order; a node enters the
queue at most once, so `codes.length` iterations always suffice and the fuel
parameter never runs out on the states produced by
`detect_circular_dependencies`. -/
def kahnLoop (graph : String → List String) :
    Nat → List String → (String → Int) → List String →
    List String × (String → Int)
  | 0, _, indeg, order => (order, indeg)
  | _ + 1, [], indeg, order => (order, indeg)
  | fuel + 1, current :: rest, indeg, order =>
    let s := (graph current).foldl decStep (indeg, rest)
    kahnLoop graph fuel s.2 s.1 (order ++ [current])

/-- The full Kahn run of `detect_circular_dependencies`: processing order and
final in-degree map. -/
def kahnRun (p : Pensum) : List String × (String → Int) :=
  let codes := pensumCodes p
  let E := pensumEdges p
  let indeg0 := initIndeg E
  let queue0 := codes.filter (fun c => indeg0 c = 0)
  kahnLoop (graphOf E) codes.length queue0 indeg0 []

/-- `PensumService.detect_circular_dependencies`: run Kahn's algorithm; if
not every node was processed, report up to five nodes with positive residual
in-degree as the cycle witness. -/
def detect_circular_dependencies (p : Pensum) : Option (List String) :=
  let codes := pensumCodes p
  let r := kahnRun p
  if r.1.length ≠ codes.length then
    let remaining := codes.filter (fun c => r.2 c > 0)
    if !remaining.isEmpty then some (remaining.take 5) else none
  else none

/-! ## Structure validation (`PensumService.validate_pensum_structure`) -/

/-- The per-course error messages of `validate_pensum_structure`, in source
order: missing prerequisites, missing corequisites, then semester-order
violations. -/
def validateErrors (p : Pensum) : List String :=
  let materia_codes := p.materias.map (·.code)
  p.materias.flatMap (fun m =>
    ((m.prerequisites.filter (fun pr => !(materia_codes.contains pr))).map
      (fun pr => m.code ++ ": Prerequisite " ++ pr ++ " not found in pensum")) ++
    ((m.corequisites.filter (fun co => !(materia_codes.contains co))).map
      (fun co => m.code ++ ": Corequisite " ++ co ++ " not found in pensum")) ++
    ((m.prerequisites.filter (fun pr =>
        match p.get_materia pr with
        | some pm => decide (pm.semester ≥ m.semester)
        | none => false)).map
      (fun pr => m.code ++ ": Prerequisite " ++ pr ++ " must be in an earlier semester")))

/-- `PensumService.validate_pensum_structure`: the error list, extended with
a cycle message when one is detected, and the `valid` flag. -/
def validate_pensum_structure (p : Pensum) : Bool × List String :=
  let errs := validateErrors p
  let errs2 := match detect_circular_dependencies p with
    | some cyc => errs ++ ["Circular dependency detected: " ++ String.intercalate " -> " cyc]
    | none => errs
  (errs2.isEmpty, errs2)

/-! ## Course-loss simulation (`PensumService.simulate_course_loss`) -/

/-- The info record built for each affected course. -/
structure MateriaInfo where
  code : String
  name : String
  semester : Nat
  credits : Nat
deriving DecidableEq, Repr

/-- `get_materia_info` of the source: resolve each code, drop unresolvable
ones, sort by the (semester, code) key (a stable sort, like Timsort). -/
def get_materia_info (p : Pensum) (codes : List String) : List MateriaInfo :=
  let raw := codes.filterMap (fun c => (p.get_materia c).map (fun m =>
    { code := m.code, name := m.name, semester := m.semester, credits := m.credits : MateriaInfo }))
  List.insertionSort (fun a b =>
    a.semester < b.semester ∨ (a.semester = b.semester ∧ a.code ≤ b.code)) raw

/-- The reverse prerequisite map `prereq_dependents[q]`: dependents appended
in course order, once per listed occurrence. -/
def prereqDependents (p : Pensum) (q : String) : List String :=
  p.materias.flatMap (fun m =>
    (m.prerequisites.filter (fun pr => pr = q)).map (fun _ => m.code))

/-- The reverse corequisite map `coreq_dependents[q]`. -/
def coreqDependents (p : Pensum) (q : String) : List String :=
  p.materias.flatMap (fun m =>
    (m.corequisites.filter (fun co => co = q)).map (fun _ => m.code))

/-- One dependent visit of the first-level loops: append to the collected
list and the visited set unless already visited. -/
def collectNew (st : List String × List String) (dep : String) :
    List String × List String :=
  if dep ∈ st.2 then st else (st.1 ++ [dep], st.2 ++ [dep])

/-- One dependent visit of the breadth-first loop.  State: queue, visited,
indirectly blocked; an unvisited dependent is appended to all three. -/
def lossStep (st : List String × List String × List String) (dep : String) :
    List String × List String × List String :=
  if dep ∈ st.2.1 then st else (st.1 ++ [dep], st.2.1 ++ [dep], st.2.2 ++ [dep])

/-- The breadth-first loop for indirect effects.  State: queue, visited,
indirectly blocked.  Every enqueued node was freshly added to the visited
set, so `p.materias.length + 2` units of fuel always cover every pop. -/
def lossLoop (pdeps : String → List String) :
    Nat → List String → List String → List String →
    List String × List String
  | 0, _, visited, ind => (visited, ind)
  | _ + 1, [], visited, ind => (visited, ind)
  | fuel + 1, cur :: rest, visited, ind =>
    let s := (pdeps cur).foldl lossStep (rest, visited, ind)
    lossLoop pdeps fuel s.1 s.2.1 s.2.2

/-- The result record of `simulate_course_loss` for an existing course. -/
structure LossResult where
  lost_course : MateriaInfo
  directly_blocked : List MateriaInfo
  indirectly_blocked : List MateriaInfo
  corequisite_affected : List MateriaInfo
  total_blocked_courses : Nat
  total_blocked_credits : Nat
deriving DecidableEq, Repr

/-- `PensumService.simulate_course_loss`: `none` models the error dict for an
unknown course.  Direct prerequisite dependents seed both `directly_blocked`
and the BFS queue; corequisite dependents are collected separately (and enter
the visited set); the BFS then fills `indirectly_blocked`. -/
def simulate_course_loss (materia_code : String) (p : Pensum) : Option LossResult :=
  let code := pyUpper materia_code
  match p.get_materia code with
  | none => none
  | some mat =>
    let s1 := (prereqDependents p code).foldl collectNew ([], [code])
    let directly := s1.1
    let s2 := (coreqDependents p code).foldl collectNew ([], s1.2)
    let coreq := s2.1
    let r := lossLoop (prereqDependents p) (p.materias.length + 2) directly s2.2 []
    let ind := r.2
    some
      { lost_course :=
          { code := mat.code, name := mat.name, semester := mat.semester, credits := mat.credits }
        directly_blocked := get_materia_info p directly
        indirectly_blocked := get_materia_info p ind
        corequisite_affected := get_materia_info p coreq
        total_blocked_courses := directly.length + ind.length
        total_blocked_credits :=
          ((directly ++ ind).filterMap (fun c => (p.get_materia c).map (·.credits))).sum }

/-! ## Course deletion (`PensumService.delete_materia`) -/

/-- The three outcomes of `delete_materia`. -/
inductive DeleteOutcome
  | notFound (msg : String)
  | hasDependents (msg : String) (dependents : List String)
  | success (deleted : String)
deriving DecidableEq, Repr

/-- `PensumService.delete_materia`: uppercase the code, fail on an unknown
course, fail listing dependents when any course references the code as
prerequisite or corequisite, otherwise remove the course and recompute
`total_credits`.  The returned pensum models the in-place mutation: it is the
input pensum on both failure paths. -/
def delete_materia (code0 : String) (p : Pensum) : DeleteOutcome × Pensum :=
  let code := pyUpper code0
  match p.get_materia code with
  | none => (.notFound ("Course " ++ code ++ " not found"), p)
  | some _ =>
    let dependents := (p.materias.filter (fun m =>
      m.prerequisites.contains code || m.corequisites.contains code)).map (·.code)
    if !dependents.isEmpty then
      (.hasDependents
        ("Cannot delete: course is a prerequisite/corequisite for " ++
          String.intercalate ", " dependents)
        dependents, p)
    else
      let materias := p.materias.filter (fun m => m.code ≠ code)
      (.success code,
        { p with materias := materias, total_credits := (materias.map (·.credits)).sum })

/-! ## Statement-level definitions -/

/-- A combination with its opaque id blanked, to compare generator outputs
modulo the uuid supply. -/
def stripId (c : HorarioCombination) : HorarioCombination :=
  { c with id := "" }

/-- The gap metric named by the sort option: `gaps_count` or `gaps_minutes`. -/
def gapMetric (filters : FilterOptions) (c : HorarioCombination) : Nat :=
  if filters.sort_by = some "gaps_count" then c.gaps_count else c.gaps_minutes

/-- The dependency-graph edge relation of a catalog, requirement to
dependent. -/
def EdgeRel (p : Pensum) (u v : String) : Prop :=
  (u, v) ∈ pensumEdges p

/-- A catalog has a cycle when some node reaches itself through at least one
prerequisite/corequisite edge. -/
def HasCycle (p : Pensum) : Prop :=
  ∃ v, Relation.TransGen (EdgeRel p) v v

/-! ## Concrete inputs used by witnesses and counterexamples -/

/-- A deterministic stand-in for the uuid id stream. -/
def demoIds (n : Nat) : String :=
  "id" ++ toString n

/-- Monday 08:00-10:00. -/
def demoBlockA : BloqueHorario :=
  { day := .monday, start := "08:00", ends := "10:00" }

/-- Monday 11:00-12:00. -/
def demoBlockB : BloqueHorario :=
  { day := .monday, start := "11:00", ends := "12:00" }

/-- Monday 09:00-11:00, overlapping `demoBlockA`. -/
def demoBlockC : BloqueHorario :=
  { day := .monday, start := "09:00", ends := "11:00" }

/-- Section A1 of course A. -/
def secA : Clase :=
  { materia_code := "A", class_code := "A1", schedule := [demoBlockA] }

/-- Section B1 of course B, conflict-free with `secA`. -/
def secB : Clase :=
  { materia_code := "B", class_code := "B1", schedule := [demoBlockB] }

/-- Section B2 of course B, conflicting with `secA`. -/
def secB2 : Clase :=
  { materia_code := "B", class_code := "B2", schedule := [demoBlockC] }

/-- A preferred slot covering Monday 07:00-13:00. -/
def demoPreferred : Franja :=
  { day := .monday, start := "07:00", ends := "13:00", status := .preferred }

/-- A second preferred slot also covering Monday mornings. -/
def demoPreferred2 : Franja :=
  { day := .monday, start := "06:00", ends := "14:00", status := .preferred }

/-- A combination holding sections A1 and B1, before metric computation. -/
def demoCombo : HorarioCombination :=
  { id := "x", clases := [secA, secB] }

/-- A bare combination with a given id and gap count, for sort tests. -/
def gapCombo (i : String) (g : Nat) : HorarioCombination :=
  { id := i, clases := [], gaps_count := g }

/-- Filter options requesting a descending gap-count sort. -/
def gapDescFilters : FilterOptions :=
  { sort_by := some "gaps_count", sort_order := some "desc" }

/-- A catalog course with the given code, semester, prerequisites and
corequisites, worth 3 credits. -/
def demoMat (c : String) (sem : Nat) (pre co : List String) : Materia :=
  { code := c, name := c, credits := 3, semester := sem,
    prerequisites := pre, corequisites := co }

/-- The MATH1 <- MATH2 <- MATH3 prerequisite chain of the loss scenario. -/
def chainPensum : Pensum :=
  { materias := [demoMat "MATH1" 1 [] [], demoMat "MATH2" 2 ["MATH1"] [],
    demoMat "MATH3" 3 ["MATH2"] []] }

/-- A catalog where C needs B as prerequisite and A as corequisite, while B
needs A: losing A leaves C only in the corequisite-affected set. -/
def cexPensum : Pensum :=
  { materias := [demoMat "A" 1 [] [], demoMat "B" 2 ["A"] [],
    demoMat "C" 3 ["B"] ["A"]] }

/-- The three-cycle A -> B -> C -> A. -/
def cycPensum : Pensum :=
  { materias := [demoMat "A" 1 ["C"] [], demoMat "B" 2 ["A"] [],
    demoMat "C" 3 ["B"] []] }

/-- A single course that lists itself as prerequisite. -/
def selfRefPensum : Pensum :=
  { materias := [demoMat "A" 1 ["A"] []] }

/-- An acyclic chain catalog for the delete scenario. -/
def dagPensum : Pensum :=
  { materias := [demoMat "A" 1 [] [], demoMat "B" 2 ["A"] [],
    demoMat "C" 3 ["B"] []] }

/-- A blocked Friday-morning slot for the C1 witness input. -/
def demoBlockedFranja : Franja :=
  { day := .friday, start := "08:00", ends := "10:00", status := .blocked }

/-- The first combination generated for the C1 witness input. -/
def demoGenCombo : HorarioCombination :=
  ((generate_combinations demoIds [("A", [secA]), ("B", [secB, secB2])]
    [demoBlockedFranja] none).combinations).getD 0 { id := "", clases := [] }

/-- The one-step reverse prerequisite relation: `v` lists `u` as
prerequisite. -/
def PrereqDep (p : Pensum) (u v : String) : Prop :=
  v ∈ prereqDependents p u

/-- The invariant carried through the Kahn worklist loop: the processing
order and queue are duplicate-free and drawn from the node set, the
in-degree map counts exactly the edges from still-unprocessed sources, queue
and processed nodes have in-degree zero, every unprocessed zero-in-degree
node is queued, and processed nodes appear in topological order. -/
structure KInv (E : List (String × String)) (codes : List String)
    (queue : List String) (indeg : String → Int) (order : List String) : Prop where
  ordNodup : order.Nodup
  ordSub : ∀ c ∈ order, c ∈ codes
  qNodup : queue.Nodup
  qSub : ∀ c ∈ queue, c ∈ codes ∧ c ∉ order
  ideg : ∀ v, indeg v =
    ((E.countP (fun e => decide (e.2 = v) && !(order.contains e.1)) : Nat) : Int)
  qZero : ∀ v ∈ queue, indeg v = 0
  ordZero : ∀ v ∈ order, indeg v = 0
  complete : ∀ v ∈ codes, v ∉ order → indeg v = 0 → v ∈ queue
  topo : ∀ e ∈ E, e.2 ∈ order →
    e.1 ∈ order ∧ order.indexOf e.1 < order.indexOf e.2

/-- The facts that hold of the Kahn loop's final state. -/
structure KFinal (E : List (String × String)) (codes : List String)
    (order : List String) (indeg : String → Int) : Prop where
  ordNodup : order.Nodup
  ordSub : ∀ c ∈ order, c ∈ codes
  ideg : ∀ v, indeg v =
    ((E.countP (fun e => decide (e.2 = v) && !(order.contains e.1)) : Nat) : Int)
  unproc : ∀ v ∈ codes, v ∉ order → indeg v ≠ 0
  ordZero : ∀ v ∈ order, indeg v = 0
  topo : ∀ e ∈ E, e.2 ∈ order →
    e.1 ∈ order ∧ order.indexOf e.1 < order.indexOf e.2

/-! ## General lemmas about the generator loop -/

lemma limitHit_some_zero (n : Nat) : limitHit (some 0) n = limitHit none n := by
  simp [limitHit]

lemma genLoop_limit_zero (idGen : Nat → String) (blocked : List BloqueHorario)
    (franjas : List Franja) :
    ∀ (tuples : List (List Clase)) (acc : List HorarioCombination) (checked : Nat),
      genLoop idGen blocked franjas (some 0) tuples acc checked =
        genLoop idGen blocked franjas none tuples acc checked := by
  intro tuples
  induction tuples with
  | nil => intro acc checked; rfl
  | cons combo rest ih =>
    intro acc checked
    simp only [genLoop]
    have h1 : limitHit (some 0) acc.length = false := rfl
    have h2 : limitHit none acc.length = false := rfl
    rw [h1, h2]
    simp only [Bool.false_eq_true, if_false]
    split
    · exact ih _ _
    · split
      · exact ih _ _
      · exact ih _ _

lemma calculate_metrics_clases (c : HorarioCombination) (franjas : List Franja) :
    (c.calculate_metrics franjas).clases = c.clases := by
  unfold HorarioCombination.calculate_metrics
  by_cases h : c.clases.isEmpty <;> by_cases hf : franjas.isEmpty <;> simp [h, hf]

lemma stripId_metrics (i j : String) (cl : List Clase) (franjas : List Franja) :
    stripId (HorarioCombination.calculate_metrics { id := i, clases := cl } franjas) =
      stripId (HorarioCombination.calculate_metrics { id := j, clases := cl } franjas) := by
  unfold HorarioCombination.calculate_metrics stripId
  by_cases h : cl.isEmpty <;> by_cases hf : franjas.isEmpty <;> simp [h, hf]

lemma genLoop_strip (i1 i2 : Nat → String) (blocked : List BloqueHorario)
    (franjas : List Franja) (limit : Option Int) :
    ∀ (tuples : List (List Clase)) (acc1 acc2 : List HorarioCombination) (ch : Nat),
      acc1.map stripId = acc2.map stripId →
      ((genLoop i1 blocked franjas limit tuples acc1 ch).1.map stripId =
        (genLoop i2 blocked franjas limit tuples acc2 ch).1.map stripId) ∧
      (genLoop i1 blocked franjas limit tuples acc1 ch).2 =
        (genLoop i2 blocked franjas limit tuples acc2 ch).2 := by
  intro tuples
  induction tuples with
  | nil => intro acc1 acc2 ch h; exact ⟨h, rfl⟩
  | cons combo rest ih =>
    intro acc1 acc2 ch h
    have hlen : acc1.length = acc2.length := by
      have := congrArg List.length h
      simpa using this
    simp only [genLoop, hlen]
    split
    · exact ⟨h, rfl⟩
    · split
      · exact ih _ _ _ h
      · split
        · exact ih _ _ _ h
        · refine ih _ _ _ ?_
          simp only [List.map_append, List.map_cons, List.map_nil, h, hlen]
          rw [stripId_metrics (i1 acc2.length) (i2 acc2.length)]

/-! ## C10 -/

/-- C10: calling `generate_combinations` with `max_combinations = 0` behaves
exactly like calling it with no limit: zero is falsy in the limit guard, so
every valid combination is returned. -/
theorem c10_zero_limit_is_unlimited (idGen : Nat → String)
    (m : List (String × List Clase)) (franjas : List Franja) :
    generate_combinations idGen m franjas (some 0) =
      generate_combinations idGen m franjas none := by
  simp only [generate_combinations]
  rw [genLoop_limit_zero]

/-! ## C5 -/

/-- C5: `generate_combinations` is deterministic: for identical inputs (the
same insertion-ordered course map, preferences and limit), two runs agree on
the accepted combinations and their order (modulo the opaque uuid ids,
modelled by the `idGen` streams) and on every counter and the warning. -/
theorem c5_deterministic (m : List (String × List Clase)) (franjas : List Franja)
    (lim : Option Int) (i1 i2 : Nat → String) :
    ((generate_combinations i1 m franjas lim).combinations.map stripId =
      (generate_combinations i2 m franjas lim).combinations.map stripId) ∧
    (generate_combinations i1 m franjas lim).total_generated =
      (generate_combinations i2 m franjas lim).total_generated ∧
    (generate_combinations i1 m franjas lim).total_possible =
      (generate_combinations i2 m franjas lim).total_possible ∧
    (generate_combinations i1 m franjas lim).total_checked =
      (generate_combinations i2 m franjas lim).total_checked ∧
    (generate_combinations i1 m franjas lim).warning =
      (generate_combinations i2 m franjas lim).warning := by
  have h := genLoop_strip i1 i2 (blockedSlots franjas) franjas lim
    (productList (m.map (·.2))) [] [] 0 rfl
  simp only [generate_combinations]
  refine ⟨h.1, ?_, trivial, h.2, trivial⟩
  have := congrArg List.length h.1
  simpa using this

/-! ## C3 -/

lemma foldl_mul_map {α : Type} (f : α → Nat) :
    ∀ (l : List α) (a : Nat), l.foldl (fun acc x => acc * f x) a = a * (l.map f).prod := by
  intro l
  induction l with
  | nil => intro a; simp
  | cons x xs ih =>
    intro a
    simp only [List.foldl_cons, List.map_cons, List.prod_cons, ih]
    ring

lemma productList_of_mem_nil {α : Type} :
    ∀ (ls : List (List α)), [] ∈ ls → productList ls = [] := by
  intro ls
  induction ls with
  | nil => intro h; cases h
  | cons l rest ih =>
    intro h
    rcases List.mem_cons.1 h with h1 | h2
    · subst h1; rfl
    · simp [productList, ih h2]

/-- C3 counterexample: with course B offering no sections, `total_possible`
is computed as 1 but the Cartesian product is empty, so no combination at all
is produced — whereas course A alone would produce one.  This refutes the
claim that combinations over the remaining courses are still produced. -/
theorem c3_counterexample :
    (generate_combinations demoIds [("A", [secA]), ("B", [])] [] none).total_possible = 1 ∧
    (generate_combinations demoIds [("A", [secA]), ("B", [])] [] none).total_generated = 0 ∧
    (generate_combinations demoIds [("A", [secA]), ("B", [])] [] none).combinations = [] ∧
    (generate_combinations demoIds [("A", [secA])] [] none).total_generated = 1 := by
  refine ⟨rfl, rfl, rfl, rfl⟩

/-- C3 as amended: `total_possible` is the product of the per-course
candidate counts with every empty list contributing a factor of 1, but empty
candidate lists are not skipped by the enumeration: whenever some course has
an empty section list the Cartesian product is empty and no combination is
produced. -/
theorem c3_amended (idGen : Nat → String) (m : List (String × List Clase))
    (franjas : List Franja) (lim : Option Int) :
    (generate_combinations idGen m franjas lim).total_possible =
      (m.map (fun pr => if pr.2.isEmpty then 1 else pr.2.length)).prod ∧
    ((∃ pr ∈ m, pr.2 = []) →
      (generate_combinations idGen m franjas lim).combinations = []) := by
  constructor
  · simp only [generate_combinations]
    rw [foldl_mul_map]
    rw [List.map_map, one_mul]
    rfl
  · rintro ⟨pr, hpr, hempty⟩
    simp only [generate_combinations]
    have hmem : ([] : List Clase) ∈ m.map (·.2) :=
      List.mem_map.2 ⟨pr, hpr, by rw [hempty]⟩
    rw [productList_of_mem_nil _ hmem]
    rfl

/-- C3 witness for the amended claim at a concrete input. -/
theorem c3_amended_witness :
    (generate_combinations demoIds [("A", [secA]), ("B", [])] [] none).combinations = [] :=
  (c3_amended demoIds [("A", [secA]), ("B", [])] [] none).2 ⟨("B", []), by simp, rfl⟩

/-! ## C1 -/

lemma anyPairConflict_eq_false :
    ∀ l : List Clase, anyPairConflict l = false ↔
      List.Pairwise (fun c₁ c₂ => c₁.conflicts_with c₂ = false) l := by
  intro l
  induction l with
  | nil => simp [anyPairConflict]
  | cons c rest ih =>
    simp only [anyPairConflict, Bool.or_eq_false_iff, List.pairwise_cons, ih,
      List.any_eq_false, Bool.not_eq_true]

lemma conflicts_with_false_iff (c o : Clase) :
    c.conflicts_with o = false ↔
      ∀ b ∈ c.schedule, ∀ ob ∈ o.schedule, b.overlaps_with ob = false := by
  simp [Clase.conflicts_with, List.any_eq_false]

lemma conflicts_with_blocks_false_iff (c : Clase) (blocks : List BloqueHorario) :
    c.conflicts_with_blocks blocks = false ↔
      ∀ b ∈ c.schedule, ∀ bl ∈ blocks, b.overlaps_with bl = false := by
  simp [Clase.conflicts_with_blocks, List.any_eq_false]

lemma genLoop_accepted (idGen : Nat → String) (blocked : List BloqueHorario)
    (franjas : List Franja) (limit : Option Int) :
    ∀ (tuples : List (List Clase)) (acc : List HorarioCombination) (ch : Nat),
      (∀ x ∈ acc, anyPairConflict x.clases = false ∧
        x.clases.any (fun c => c.conflicts_with_blocks blocked) = false) →
      ∀ x ∈ (genLoop idGen blocked franjas limit tuples acc ch).1,
        anyPairConflict x.clases = false ∧
        x.clases.any (fun c => c.conflicts_with_blocks blocked) = false := by
  intro tuples
  induction tuples with
  | nil => intro acc ch hacc; exact hacc
  | cons combo rest ih =>
    intro acc ch hacc
    simp only [genLoop]
    split
    · exact hacc
    · split
      · exact ih _ _ hacc
      · split
        · exact ih _ _ hacc
        · rename_i hpair hblock
          refine ih _ _ ?_
          intro x hx
          rcases List.mem_append.1 hx with hx | hx
          · exact hacc x hx
          · have hx' : x = HorarioCombination.calculate_metrics
                { id := idGen acc.length, clases := combo } franjas := by
              simpa using hx
            subst hx'
            rw [calculate_metrics_clases]
            exact ⟨Bool.not_eq_true _ ▸ Bool.of_not_eq_true hpair,
              Bool.of_not_eq_true hblock⟩

/-- C1: every combination returned by `generate_combinations` is
conflict-free: for every pair of distinct sections in its class list no time
block of one overlaps a time block of the other, and no block of any chosen
section overlaps any preference whose status is blocked. -/
theorem c1_generated_conflict_free (idGen : Nat → String)
    (m : List (String × List Clase)) (franjas : List Franja) (lim : Option Int)
    (combo : HorarioCombination)
    (hmem : combo ∈ (generate_combinations idGen m franjas lim).combinations) :
    List.Pairwise (fun c₁ c₂ => ∀ b₁ ∈ c₁.schedule, ∀ b₂ ∈ c₂.schedule,
      b₁.overlaps_with b₂ = false) combo.clases ∧
    ∀ c ∈ combo.clases, ∀ b ∈ c.schedule, ∀ f ∈ franjas,
      f.status = FranjaStatus.blocked → b.overlaps_with f.to_bloque = false := by
  simp only [generate_combinations] at hmem
  have h := genLoop_accepted idGen (blockedSlots franjas) franjas lim
    (productList (m.map (·.2))) [] 0 (by simp) combo hmem
  constructor
  · have := (anyPairConflict_eq_false _).1 h.1
    exact this.imp (fun hc => (conflicts_with_false_iff _ _).1 hc)
  · intro c hc b hb f hf hstatus
    have hall := List.any_eq_false.1 h.2 c hc
    have hbl : f.to_bloque ∈ blockedSlots franjas :=
      List.mem_map.2 ⟨f, List.mem_filter.2 ⟨hf, by simp [hstatus]⟩, rfl⟩
    exact (conflicts_with_blocks_false_iff _ _).1 (Bool.of_not_eq_true hall) b hb
      f.to_bloque hbl

/-- C1 witness: the theorem applied to a concrete generated combination. -/
theorem c1_witness :
    List.Pairwise (fun c₁ c₂ => ∀ b₁ ∈ c₁.schedule, ∀ b₂ ∈ c₂.schedule,
      b₁.overlaps_with b₂ = false) demoGenCombo.clases ∧
    ∀ c ∈ demoGenCombo.clases, ∀ b ∈ c.schedule, ∀ f ∈ [demoBlockedFranja],
      f.status = FranjaStatus.blocked → b.overlaps_with f.to_bloque = false :=
  c1_generated_conflict_free demoIds [("A", [secA]), ("B", [secB, secB2])]
    [demoBlockedFranja] none demoGenCombo (by decide)

/-! ## C4 -/

lemma genLoop_length_le_limit (idGen : Nat → String) (blocked : List BloqueHorario)
    (franjas : List Franja) (l : Int) (hl : 0 < l) :
    ∀ (tuples : List (List Clase)) (acc : List HorarioCombination) (ch : Nat),
      (acc.length : Int) ≤ l →
      ((genLoop idGen blocked franjas (some l) tuples acc ch).1.length : Int) ≤ l := by
  intro tuples
  induction tuples with
  | nil => intro acc ch h; exact h
  | cons combo rest ih =>
    intro acc ch h
    simp only [genLoop]
    split
    · exact h
    · rename_i hhit
      have hlt : (acc.length : Int) < l := by
        simp only [limitHit, if_neg (by omega : ¬l = 0)] at hhit
        have := Bool.of_not_eq_true hhit
        simp only [decide_eq_false_iff_not, not_le] at this
        exact this
      split
      · exact ih _ _ h
      · split
        · exact ih _ _ h
        · refine ih _ _ ?_
          simp only [List.length_append, List.length_cons, List.length_nil]
          push_cast
          omega

lemma genLoop_checked_le (idGen : Nat → String) (blocked : List BloqueHorario)
    (franjas : List Franja) (limit : Option Int) :
    ∀ (tuples : List (List Clase)) (acc : List HorarioCombination) (ch : Nat),
      (genLoop idGen blocked franjas limit tuples acc ch).2 ≤ ch + tuples.length := by
  intro tuples
  induction tuples with
  | nil => intro acc ch; simp [genLoop]
  | cons combo rest ih =>
    intro acc ch
    simp only [genLoop]
    split
    · simp only [List.length_cons]; omega
    · split
      · have := ih acc (ch + 1); simp only [List.length_cons]; omega
      · split
        · have := ih acc (ch + 1); simp only [List.length_cons]; omega
        · have := ih (acc ++ [HorarioCombination.calculate_metrics
            { id := idGen acc.length, clases := combo } franjas]) (ch + 1)
          simp only [List.length_cons]; omega

lemma genLoop_gen_le_checked (idGen : Nat → String) (blocked : List BloqueHorario)
    (franjas : List Franja) (limit : Option Int) :
    ∀ (tuples : List (List Clase)) (acc : List HorarioCombination) (ch : Nat),
      (genLoop idGen blocked franjas limit tuples acc ch).1.length + ch ≤
        acc.length + (genLoop idGen blocked franjas limit tuples acc ch).2 := by
  intro tuples
  induction tuples with
  | nil => intro acc ch; simp [genLoop]
  | cons combo rest ih =>
    intro acc ch
    simp only [genLoop]
    split
    · dsimp only; omega
    · split
      · have := ih acc (ch + 1); omega
      · split
        · have := ih acc (ch + 1); omega
        · have := ih (acc ++ [HorarioCombination.calculate_metrics
            { id := idGen acc.length, clases := combo } franjas]) (ch + 1)
          simp only [List.length_append, List.length_cons, List.length_nil] at this
          omega

lemma genLoop_length_le (idGen : Nat → String) (blocked : List BloqueHorario)
    (franjas : List Franja) (limit : Option Int) :
    ∀ (tuples : List (List Clase)) (acc : List HorarioCombination) (ch : Nat),
      (genLoop idGen blocked franjas limit tuples acc ch).1.length ≤
        acc.length + tuples.length := by
  intro tuples
  induction tuples with
  | nil => intro acc ch; simp [genLoop]
  | cons combo rest ih =>
    intro acc ch
    simp only [genLoop]
    split
    · simp only [List.length_cons]; omega
    · split
      · have := ih acc (ch + 1); simp only [List.length_cons]; omega
      · split
        · have := ih acc (ch + 1); simp only [List.length_cons]; omega
        · have := ih (acc ++ [HorarioCombination.calculate_metrics
            { id := idGen acc.length, clases := combo } franjas]) (ch + 1)
          simp only [List.length_append, List.length_cons, List.length_nil] at this ⊢
          omega

lemma productList_length {α : Type} :
    ∀ ls : List (List α), (productList ls).length = (ls.map List.length).prod := by
  intro ls
  induction ls with
  | nil => rfl
  | cons l rest ih =>
    simp only [productList, List.length_flatMap, List.map_cons, List.prod_cons]
    have hmap : List.map (List.length ∘ fun x => List.map (fun r => x :: r) (productList rest)) l
        = List.map (fun _ => (productList rest).length) l := by
      apply List.map_congr_left
      intro x _
      simp [Function.comp]
    rw [hmap, List.map_const', List.sum_replicate, smul_eq_mul, ih]

lemma prod_len_le_possible {α : Type} :
    ∀ ls : List (List α), (ls.map List.length).prod ≤
      (ls.map (fun l => if l.isEmpty then 1 else l.length)).prod := by
  intro ls
  induction ls with
  | nil => simp
  | cons l rest ih =>
    simp only [List.map_cons, List.prod_cons]
    refine Nat.mul_le_mul ?_ ih
    by_cases h : l.isEmpty
    · have hl : l = [] := List.isEmpty_iff.1 h
      subst hl; simp
    · simp [h]

/-- C4: with a positive limit the generator stops as soon as the accepted
count reaches the limit, so `total_generated` never exceeds it; in all cases
`total_checked` only counts visited tuples (so it is bounded by
`total_possible`), `total_generated ≤ total_possible`, and
`total_generated ≤ total_checked` (in particular when no limit is given). -/
theorem c4_limit_and_counters (idGen : Nat → String)
    (m : List (String × List Clase)) (franjas : List Franja) :
    (∀ l : Int, 0 < l →
      ((generate_combinations idGen m franjas (some l)).total_generated : Int) ≤ l) ∧
    (∀ lim : Option Int, (generate_combinations idGen m franjas lim).total_generated ≤
      (generate_combinations idGen m franjas lim).total_possible) ∧
    (∀ lim : Option Int, (generate_combinations idGen m franjas lim).total_checked ≤
      (generate_combinations idGen m franjas lim).total_possible) ∧
    (∀ lim : Option Int, (generate_combinations idGen m franjas lim).total_generated ≤
      (generate_combinations idGen m franjas lim).total_checked) := by
  have hposs : ∀ lim : Option Int,
      (generate_combinations idGen m franjas lim).total_possible =
        (m.map (fun pr => if pr.2.isEmpty then 1 else pr.2.length)).prod :=
    fun lim => (c3_amended idGen m franjas lim).1
  have htup : (productList (m.map (·.2))).length ≤
      (m.map (fun pr => if pr.2.isEmpty then 1 else pr.2.length)).prod := by
    rw [productList_length]
    calc ((m.map (·.2)).map List.length).prod
        ≤ ((m.map (·.2)).map (fun l => if l.isEmpty then 1 else l.length)).prod :=
          prod_len_le_possible (m.map (·.2))
      _ = (m.map (fun pr => if pr.2.isEmpty then 1 else pr.2.length)).prod := by
          rw [List.map_map]; rfl
  refine ⟨?_, ?_, ?_, ?_⟩
  · intro l hl
    simp only [generate_combinations]
    exact genLoop_length_le_limit idGen (blockedSlots franjas) franjas l hl
      (productList (m.map (·.2))) [] 0 (by simpa using hl.le)
  · intro lim
    rw [hposs lim]
    simp only [generate_combinations]
    have h1 := genLoop_length_le idGen (blockedSlots franjas) franjas lim
      (productList (m.map (·.2))) [] 0
    simp only [List.length_nil, Nat.zero_add] at h1
    exact le_trans h1 htup
  · intro lim
    rw [hposs lim]
    simp only [generate_combinations]
    have h1 := genLoop_checked_le idGen (blockedSlots franjas) franjas lim
      (productList (m.map (·.2))) [] 0
    simp only [Nat.zero_add] at h1
    exact le_trans h1 htup
  · intro lim
    simp only [generate_combinations]
    have h1 := genLoop_gen_le_checked idGen (blockedSlots franjas) franjas lim
      (productList (m.map (·.2))) [] 0
    simpa using h1

/-- C4 witness: the limit bound applied at a concrete input with limit 1. -/
theorem c4_witness :
    ((generate_combinations demoIds [("A", [secA]), ("B", [secB, secB2])] []
      (some 1)).total_generated : Int) ≤ 1 :=
  (c4_limit_and_counters demoIds [("A", [secA]), ("B", [secB, secB2])] []).1 1 (by decide)

/-! ## C8 -/

lemma firstPrefMatch_eq_any (b : BloqueHorario) :
    ∀ prefs : List Franja, firstPrefMatch b prefs = prefs.any (prefMatches b) := by
  intro prefs
  induction prefs with
  | nil => rfl
  | cons f rest ih =>
    simp only [firstPrefMatch, List.any_cons]
    by_cases h : prefMatches b f
    · simp [h]
    · simp [h, ih]

lemma countPreferred_eq_countP (prefs : List Franja) :
    ∀ bs : List BloqueHorario,
      countPreferred prefs bs = bs.countP (fun b => firstPrefMatch b prefs) := by
  intro bs
  induction bs with
  | nil => rfl
  | cons b rest ih =>
    simp only [countPreferred, ih, List.countP_cons]
    by_cases h : firstPrefMatch b prefs
    · simp [h]; omega
    · simp [h]

/-- C8: for a combination with at least one class and a non-empty preference
list, `calculate_metrics` sets `preferred_slots_used` to the number of
section blocks that are same-day and fully nested inside at least one
preferred preference — each block counted at most once even when it is
nested inside several preferred slots. -/
theorem c8_preferred_slot_count (c : HorarioCombination) (franjas : List Franja)
    (hc : c.clases ≠ []) (hf : franjas ≠ []) :
    (c.calculate_metrics franjas).preferred_slots_used =
      (c.clases.flatMap (·.schedule)).countP (fun b =>
        decide (∃ f ∈ franjas, f.status = FranjaStatus.preferred ∧ b.day = f.day ∧
          f.to_bloque.get_start_minutes ≤ b.get_start_minutes ∧
          b.get_end_minutes ≤ f.to_bloque.get_end_minutes)) := by
  unfold HorarioCombination.calculate_metrics
  rw [if_neg (by simpa [List.isEmpty_iff] using hc),
    if_neg (by simpa [List.isEmpty_iff] using hf)]
  simp only []
  rw [countPreferred_eq_countP]
  apply List.countP_congr
  intro b _
  rw [firstPrefMatch_eq_any]
  simp only [List.any_eq_true, List.mem_filter, decide_eq_true_eq, prefMatches,
    Bool.and_eq_true, ge_iff_le, Franja.to_bloque]
  tauto

/-- C8 witness: the count at a concrete combination whose blocks are nested
inside two overlapping preferred slots (each block still counts once). -/
theorem c8_witness :
    (demoCombo.calculate_metrics [demoPreferred, demoPreferred2]).preferred_slots_used =
      (demoCombo.clases.flatMap (·.schedule)).countP (fun b =>
        decide (∃ f ∈ [demoPreferred, demoPreferred2],
          f.status = FranjaStatus.preferred ∧ b.day = f.day ∧
          f.to_bloque.get_start_minutes ≤ b.get_start_minutes ∧
          b.get_end_minutes ≤ f.to_bloque.get_end_minutes)) :=
  c8_preferred_slot_count demoCombo [demoPreferred, demoPreferred2]
    (by decide) (by decide)

/-! ## C2 -/

lemma pySort_asc_sorted (key : HorarioCombination → Int) (l : List HorarioCombination) :
    (pySort key false l).Sorted (fun a b => key a ≤ key b) := by
  haveI : IsTotal HorarioCombination (fun a b => key a ≤ key b) :=
    ⟨fun a b => le_total (key a) (key b)⟩
  haveI : IsTrans HorarioCombination (fun a b => key a ≤ key b) :=
    ⟨fun _ _ _ h1 h2 => le_trans h1 h2⟩
  simpa [pySort] using List.sorted_insertionSort (fun a b => key a ≤ key b) l

lemma pySort_desc_sorted (key : HorarioCombination → Int) (l : List HorarioCombination) :
    (pySort key true l).Sorted (fun a b => key b ≤ key a) := by
  haveI : IsTotal HorarioCombination (fun a b => key b ≤ key a) :=
    ⟨fun a b => (le_total (key b) (key a))⟩
  haveI : IsTrans HorarioCombination (fun a b => key b ≤ key a) :=
    ⟨fun _ _ _ h1 h2 => le_trans h2 h1⟩
  simpa [pySort] using List.sorted_insertionSort (fun a b => key b ≤ key a) l

lemma pySort_perm (key : HorarioCombination → Int) (rev : Bool)
    (l : List HorarioCombination) : (pySort key rev l).Perm l := by
  cases rev
  · simpa [pySort] using List.perm_insertionSort (fun a b => key a ≤ key b) l
  · simpa [pySort] using List.perm_insertionSort (fun a b => key b ≤ key a) l

/-- C2: whenever `sort_by` is `gaps_count` or `gaps_minutes`,
`filter_combinations` returns the filtered list ordered ascending by that
metric regardless of the requested `sort_order`: an `asc` request sorts lower
values first and a `desc` request still yields ascending-by-value order (the
key closures read the reassigned `reverse` flag, so the two inversions
cancel). -/
theorem c2_gap_sort_always_ascending (combos : List HorarioCombination)
    (filters : FilterOptions)
    (h : filters.sort_by = some "gaps_count" ∨ filters.sort_by = some "gaps_minutes") :
    (filter_combinations combos filters).Perm (applyFilters combos filters) ∧
    (filter_combinations combos filters).Sorted
      (fun a b => gapMetric filters a ≤ gapMetric filters b) := by
  rcases h with h | h
  · have hmetric : ∀ c, gapMetric filters c = c.gaps_count := by
      intro c; simp [gapMetric, h]
    unfold filter_combinations
    rw [h]
    simp only [Option.getD_some, String.reduceEq, if_false, if_true, true_or,
      reduceIte]
    by_cases hso : filters.sort_order.getD "desc" = "asc"
    · have hd : decide (filters.sort_order.getD "desc" = "asc") = true := by
        simp [hso]
      rw [hd]
      constructor
      · exact pySort_perm _ _ _
      · have := pySort_desc_sorted
          (fun c => if (true : Bool) then -(c.gaps_count : Int) else (c.gaps_count : Int))
          (applyFilters combos filters)
        refine this.imp ?_
        intro a b hab
        simp only [if_true, neg_le_neg_iff, Nat.cast_le, hmetric] at hab ⊢
        simpa using hab
    · have hd : decide (filters.sort_order.getD "desc" = "asc") = false := by
        simp [hso]
      rw [hd]
      constructor
      · exact pySort_perm _ _ _
      · have := pySort_asc_sorted
          (fun c => if (false : Bool) then -(c.gaps_count : Int) else (c.gaps_count : Int))
          (applyFilters combos filters)
        refine this.imp ?_
        intro a b hab
        simp only [if_false, Nat.cast_le, hmetric] at hab ⊢
        simpa using hab
  · have hmetric : ∀ c, gapMetric filters c = c.gaps_minutes := by
      intro c; simp [gapMetric, h]
    unfold filter_combinations
    rw [h]
    simp only [Option.getD_some, String.reduceEq, if_false, if_true, or_true,
      reduceIte]
    by_cases hso : filters.sort_order.getD "desc" = "asc"
    · have hd : decide (filters.sort_order.getD "desc" = "asc") = true := by
        simp [hso]
      rw [hd]
      constructor
      · exact pySort_perm _ _ _
      · have := pySort_desc_sorted
          (fun c => if (true : Bool) then -(c.gaps_minutes : Int) else (c.gaps_minutes : Int))
          (applyFilters combos filters)
        refine this.imp ?_
        intro a b hab
        simp only [if_true, neg_le_neg_iff, Nat.cast_le, hmetric] at hab ⊢
        simpa using hab
    · have hd : decide (filters.sort_order.getD "desc" = "asc") = false := by
        simp [hso]
      rw [hd]
      constructor
      · exact pySort_perm _ _ _
      · have := pySort_asc_sorted
          (fun c => if (false : Bool) then -(c.gaps_minutes : Int) else (c.gaps_minutes : Int))
          (applyFilters combos filters)
        refine this.imp ?_
        intro a b hab
        simp only [if_false, Nat.cast_le, hmetric] at hab ⊢
        simpa using hab

/-- C2 witness: a descending request on gap counts still comes back ascending
by value. -/
theorem c2_witness :
    (filter_combinations [gapCombo "a" 3, gapCombo "b" 1, gapCombo "c" 2]
      gapDescFilters).Perm (applyFilters [gapCombo "a" 3, gapCombo "b" 1, gapCombo "c" 2]
      gapDescFilters) ∧
    (filter_combinations [gapCombo "a" 3, gapCombo "b" 1, gapCombo "c" 2]
      gapDescFilters).Sorted
      (fun a b => gapMetric gapDescFilters a ≤ gapMetric gapDescFilters b) :=
  c2_gap_sort_always_ascending [gapCombo "a" 3, gapCombo "b" 1, gapCombo "c" 2]
    gapDescFilters (Or.inl rfl)

/-! ## C9 -/

/-- C9 counterexample: a course that lists itself as prerequisite.  Deleting
it fails listing itself as the dependent although no other course references
its code, refuting the claim's "if and only if some other course references
that code". -/
theorem c9_counterexample :
    (∃ msg, (delete_materia "A" selfRefPensum).1 = .hasDependents msg ["A"]) ∧
    ¬(∃ m ∈ selfRefPensum.materias, m.code ≠ "A" ∧
      ("A" ∈ m.prerequisites ∨ "A" ∈ m.corequisites)) := by
  refine ⟨⟨_, rfl⟩, ?_⟩
  decide

/-- C9 as amended: for an existing course code, `delete_materia` fails
listing the dependents exactly when some course (possibly the course itself)
references the code as prerequisite or corequisite; the catalog is returned
unchanged on that failure, and on success the course is removed and
`total_credits` is recomputed as the sum of the remaining credits. -/
theorem c9_amended (code0 : String) (p : Pensum)
    (hex : (p.get_materia (pyUpper code0)).isSome) :
    ((∃ m ∈ p.materias, pyUpper code0 ∈ m.prerequisites ∨ pyUpper code0 ∈ m.corequisites) ↔
      ∃ msg deps, (delete_materia code0 p).1 = .hasDependents msg deps ∧ deps ≠ []) ∧
    (∀ msg deps, (delete_materia code0 p).1 = .hasDependents msg deps →
      (delete_materia code0 p).2 = p ∧
      deps = (p.materias.filter (fun m =>
        m.prerequisites.contains (pyUpper code0) ||
        m.corequisites.contains (pyUpper code0))).map (·.code)) ∧
    ((delete_materia code0 p).1 = .success (pyUpper code0) →
      (delete_materia code0 p).2.materias =
        p.materias.filter (fun m => m.code ≠ pyUpper code0) ∧
      (delete_materia code0 p).2.total_credits =
        ((delete_materia code0 p).2.materias.map (·.credits)).sum) ∧
    ((¬∃ m ∈ p.materias, pyUpper code0 ∈ m.prerequisites ∨
        pyUpper code0 ∈ m.corequisites) →
      (delete_materia code0 p).1 = .success (pyUpper code0)) := by
  rcases Option.isSome_iff_exists.1 hex with ⟨mfound, hm⟩
  have hdel : delete_materia code0 p =
      (let dependents := (p.materias.filter (fun m =>
        m.prerequisites.contains (pyUpper code0) ||
        m.corequisites.contains (pyUpper code0))).map (·.code)
      if !dependents.isEmpty then
        (.hasDependents
          ("Cannot delete: course is a prerequisite/corequisite for " ++
            String.intercalate ", " dependents)
          dependents, p)
      else
        (.success (pyUpper code0),
          { p with
            materias := p.materias.filter (fun m => m.code ≠ pyUpper code0)
            total_credits :=
              ((p.materias.filter (fun m => m.code ≠ pyUpper code0)).map (·.credits)).sum })) := by
    simp only [delete_materia, hm]
  have hiff : (∃ m ∈ p.materias,
      pyUpper code0 ∈ m.prerequisites ∨ pyUpper code0 ∈ m.corequisites) ↔
      (p.materias.filter (fun m =>
        m.prerequisites.contains (pyUpper code0) ||
        m.corequisites.contains (pyUpper code0))).map (·.code) ≠ [] := by
    simp only [ne_eq, List.map_eq_nil_iff, List.filter_eq_nil_iff, not_forall]
    constructor
    · rintro ⟨m, hmem, href⟩
      refine ⟨m, hmem, ?_⟩
      simp only [Bool.or_eq_true, List.elem_iff, not_not]
      tauto
    · rintro ⟨m, hmem, href⟩
      refine ⟨m, hmem, ?_⟩
      simp only [Bool.or_eq_true, List.elem_iff, not_not] at href
      tauto
  by_cases hd : (p.materias.filter (fun m =>
      m.prerequisites.contains (pyUpper code0) ||
      m.corequisites.contains (pyUpper code0))).map (·.code) = []
  · rw [hdel]
    simp only [hd, List.isEmpty_nil, Bool.not_true, Bool.false_eq_true, if_false]
    refine ⟨?_, ?_, ?_, ?_⟩
    · constructor
      · intro hex2; exact absurd hd (hiff.1 hex2)
      · rintro ⟨msg, deps, hout, _⟩
        simp at hout
    · rintro msg deps hout
      simp at hout
    · intro _
      refine ⟨?_, ?_⟩ <;> simp
    · intro _
      simp
  · rw [hdel]
    have hne : ((p.materias.filter (fun m =>
        m.prerequisites.contains (pyUpper code0) ||
        m.corequisites.contains (pyUpper code0))).map (·.code)).isEmpty = false := by
      rw [← Bool.not_eq_true, List.isEmpty_iff]
      exact hd
    simp only [hne, Bool.not_false, if_true]
    refine ⟨?_, ?_, ?_, ?_⟩
    · constructor
      · intro _; exact ⟨_, _, rfl, hd⟩
      · intro _; exact hiff.2 hd
    · rintro msg deps hout
      cases hout
      exact ⟨trivial, rfl⟩
    · rintro hout
      simp at hout
    · intro hno; exact absurd (hiff.2 hd) hno

/-- C9 witness: the amended theorem applied to a concrete catalog, on a
course with dependents and after checking the success case on a leaf
course. -/
theorem c9_witness :
    ((∃ m ∈ dagPensum.materias, pyUpper "A" ∈ m.prerequisites ∨
        pyUpper "A" ∈ m.corequisites) ↔
      ∃ msg deps, (delete_materia "A" dagPensum).1 = .hasDependents msg deps ∧
        deps ≠ []) ∧
    ((delete_materia "C" dagPensum).1 = .success (pyUpper "C") →
      (delete_materia "C" dagPensum).2.materias =
        dagPensum.materias.filter (fun m => m.code ≠ pyUpper "C") ∧
      (delete_materia "C" dagPensum).2.total_credits =
        ((delete_materia "C" dagPensum).2.materias.map (·.credits)).sum) :=
  ⟨(c9_amended "A" dagPensum (by decide)).1,
    (c9_amended "C" dagPensum (by decide)).2.2.1⟩

/-! ## C7 -/

lemma collectNew_visited (deps : List String) :
    ∀ (coll vis pre : List String), vis = pre ++ coll →
      (deps.foldl collectNew (coll, vis)).2 =
        pre ++ (deps.foldl collectNew (coll, vis)).1 := by
  induction deps with
  | nil => intro coll vis pre h; simpa using h
  | cons d rest ih =>
    intro coll vis pre h
    simp only [List.foldl_cons, collectNew]
    by_cases hd : d ∈ vis
    · rw [if_pos hd]; exact ih coll vis pre h
    · rw [if_neg hd]
      refine ih (coll ++ [d]) (vis ++ [d]) pre ?_
      rw [h, List.append_assoc]

lemma collectNew_nodup (deps : List String) :
    ∀ (coll vis : List String), vis.Nodup →
      (deps.foldl collectNew (coll, vis)).2.Nodup := by
  induction deps with
  | nil => intro coll vis h; exact h
  | cons d rest ih =>
    intro coll vis h
    simp only [List.foldl_cons, collectNew]
    by_cases hd : d ∈ vis
    · rw [if_pos hd]; exact ih coll vis h
    · rw [if_neg hd]
      refine ih _ _ ?_
      simp [List.nodup_append, h, hd]

lemma collectNew_subset (deps : List String) :
    ∀ (coll vis : List String) (x : String),
      x ∈ (deps.foldl collectNew (coll, vis)).1 → x ∈ coll ∨ x ∈ deps := by
  induction deps with
  | nil => intro coll vis x h; exact Or.inl h
  | cons d rest ih =>
    intro coll vis x h
    simp only [List.foldl_cons, collectNew] at h
    by_cases hd : d ∈ vis
    · rw [if_pos hd] at h
      rcases ih coll vis x h with h | h
      · exact Or.inl h
      · exact Or.inr (List.mem_cons_of_mem _ h)
    · rw [if_neg hd] at h
      rcases ih (coll ++ [d]) (vis ++ [d]) x h with h | h
      · rcases List.mem_append.1 h with h | h
        · exact Or.inl h
        · exact Or.inr (by simpa using Or.inl (by simpa using h))
      · exact Or.inr (List.mem_cons_of_mem _ h)

lemma lossStep_visited (deps : List String) :
    ∀ (q vis ind pre : List String), vis = pre ++ ind →
      (deps.foldl lossStep (q, vis, ind)).2.1 =
        pre ++ (deps.foldl lossStep (q, vis, ind)).2.2 := by
  induction deps with
  | nil => intro q vis ind pre h; exact h
  | cons d rest ih =>
    intro q vis ind pre h
    simp only [List.foldl_cons, lossStep]
    by_cases hd : d ∈ vis
    · rw [if_pos hd]; exact ih q vis ind pre h
    · rw [if_neg hd]
      refine ih _ _ _ pre ?_
      rw [h, List.append_assoc]

lemma lossStep_nodup (deps : List String) :
    ∀ (q vis ind : List String), vis.Nodup →
      (deps.foldl lossStep (q, vis, ind)).2.1.Nodup := by
  induction deps with
  | nil => intro q vis ind h; exact h
  | cons d rest ih =>
    intro q vis ind h
    simp only [List.foldl_cons, lossStep]
    by_cases hd : d ∈ vis
    · rw [if_pos hd]; exact ih q vis ind h
    · rw [if_neg hd]
      refine ih _ _ _ ?_
      simp [List.nodup_append, h, hd]

lemma lossStep_sound (P : String → Prop) (deps : List String) (hdeps : ∀ d ∈ deps, P d) :
    ∀ (q vis ind : List String), (∀ x ∈ q, P x) → (∀ x ∈ ind, P x) →
      (∀ x ∈ (deps.foldl lossStep (q, vis, ind)).1, P x) ∧
      (∀ x ∈ (deps.foldl lossStep (q, vis, ind)).2.2, P x) := by
  induction deps with
  | nil => intro q vis ind hq hind; exact ⟨hq, hind⟩
  | cons d rest ih =>
    intro q vis ind hq hind
    have hd0 : P d := hdeps d (List.mem_cons_self d rest)
    have hrest : ∀ x ∈ rest, P x := fun x hx => hdeps x (List.mem_cons_of_mem _ hx)
    simp only [List.foldl_cons, lossStep]
    by_cases hd : d ∈ vis
    · rw [if_pos hd]; exact ih hrest q vis ind hq hind
    · rw [if_neg hd]
      refine ih hrest _ _ _ ?_ ?_
      · intro x hx
        rcases List.mem_append.1 hx with hx | hx
        · exact hq x hx
        · simp only [List.mem_singleton] at hx; subst hx; exact hd0
      · intro x hx
        rcases List.mem_append.1 hx with hx | hx
        · exact hind x hx
        · simp only [List.mem_singleton] at hx; subst hx; exact hd0

lemma lossLoop_visited (pdeps : String → List String) :
    ∀ (fuel : Nat) (queue vis ind pre : List String), vis = pre ++ ind →
      (lossLoop pdeps fuel queue vis ind).1 =
        pre ++ (lossLoop pdeps fuel queue vis ind).2 := by
  intro fuel
  induction fuel with
  | zero => intro queue vis ind pre h; exact h
  | succ n ih =>
    intro queue vis ind pre h
    cases queue with
    | nil => exact h
    | cons cur rest =>
      simp only [lossLoop]
      exact ih _ _ _ pre (lossStep_visited (pdeps cur) rest vis ind pre h)

lemma lossLoop_nodup (pdeps : String → List String) :
    ∀ (fuel : Nat) (queue vis ind : List String), vis.Nodup →
      (lossLoop pdeps fuel queue vis ind).1.Nodup := by
  intro fuel
  induction fuel with
  | zero => intro queue vis ind h; exact h
  | succ n ih =>
    intro queue vis ind h
    cases queue with
    | nil => exact h
    | cons cur rest =>
      simp only [lossLoop]
      exact ih _ _ _ (lossStep_nodup (pdeps cur) rest vis ind h)

lemma lossLoop_sound (pdeps : String → List String) (P : String → Prop)
    (hstep : ∀ u v, P u → v ∈ pdeps u → P v) :
    ∀ (fuel : Nat) (queue vis ind : List String),
      (∀ x ∈ queue, P x) → (∀ x ∈ ind, P x) →
      ∀ x ∈ (lossLoop pdeps fuel queue vis ind).2, P x := by
  intro fuel
  induction fuel with
  | zero => intro queue vis ind hq hind; exact hind
  | succ n ih =>
    intro queue vis ind hq hind
    cases queue with
    | nil => exact hind
    | cons cur rest =>
      simp only [lossLoop]
      have hcur : P cur := hq cur (List.mem_cons_self cur rest)
      have hrest : ∀ x ∈ rest, P x := fun x hx => hq x (List.mem_cons_of_mem _ hx)
      have hdeps : ∀ d ∈ pdeps cur, P d := fun d hd => hstep cur d hcur hd
      have hs := lossStep_sound P (pdeps cur) hdeps rest vis ind hrest hind
      exact ih _ _ _ hs.1 hs.2

lemma prereqDependents_mem (p : Pensum) (q x : String)
    (h : x ∈ prereqDependents p q) : ∃ m ∈ p.materias, m.code = x := by
  simp only [prereqDependents, List.mem_flatMap, List.mem_map, List.mem_filter] at h
  rcases h with ⟨m, hm, _, _, hx⟩
  exact ⟨m, hm, hx⟩

lemma transGen_prereq_mem (p : Pensum) (a x : String)
    (h : Relation.TransGen (PrereqDep p) a x) : ∃ m ∈ p.materias, m.code = x := by
  induction h with
  | single hr => exact prereqDependents_mem p _ _ hr
  | tail _ hr _ => exact prereqDependents_mem p _ _ hr

lemma resolve_code (p : Pensum) (c : String)
    (hup : ∀ m ∈ p.materias, pyUpper m.code = m.code)
    (hc : ∃ m ∈ p.materias, m.code = c) :
    ∃ m', p.get_materia c = some m' ∧ m'.code = c := by
  rcases hc with ⟨m, hm, hcode⟩
  have hpc : pyUpper c = c := by rw [← hcode]; exact hup m hm
  have hsome : (p.materias.find? (fun m => m.code = pyUpper c)).isSome := by
    rw [List.find?_isSome]
    exact ⟨m, hm, by simp [hpc, hcode]⟩
  rcases Option.isSome_iff_exists.1 hsome with ⟨m', hm'⟩
  refine ⟨m', hm', ?_⟩
  have := List.find?_some hm'
  simpa [hpc] using this

lemma rawInfo_map_code (p : Pensum) (hup : ∀ m ∈ p.materias, pyUpper m.code = m.code) :
    ∀ codes : List String, (∀ c ∈ codes, ∃ m ∈ p.materias, m.code = c) →
      ((codes.filterMap (fun c => (p.get_materia c).map (fun m =>
        { code := m.code, name := m.name, semester := m.semester,
          credits := m.credits : MateriaInfo }))).map (·.code)) = codes := by
  intro codes
  induction codes with
  | nil => intro _; rfl
  | cons c rest ih =>
    intro h
    rcases resolve_code p c hup (h c (List.mem_cons_self c rest)) with ⟨m', hm', hcode⟩
    have hrest := ih (fun x hx => h x (List.mem_cons_of_mem _ hx))
    simp [List.filterMap_cons, hm', hcode, hrest]

lemma info_map_code_perm (p : Pensum) (codes : List String)
    (hup : ∀ m ∈ p.materias, pyUpper m.code = m.code)
    (hcodes : ∀ c ∈ codes, ∃ m ∈ p.materias, m.code = c) :
    ((get_materia_info p codes).map (·.code)).Perm codes := by
  unfold get_materia_info
  have hperm := List.perm_insertionSort (fun a b : MateriaInfo =>
    a.semester < b.semester ∨ (a.semester = b.semester ∧ a.code ≤ b.code))
    (codes.filterMap (fun c => (p.get_materia c).map (fun m =>
      { code := m.code, name := m.name, semester := m.semester,
        credits := m.credits : MateriaInfo })))
  have := hperm.map (·.code)
  rwa [rawInfo_map_code p hup codes hcodes] at this

lemma info_credits_sum (p : Pensum) (codes : List String) :
    ((get_materia_info p codes).map (·.credits)).sum =
      ((codes.filterMap (fun c => (p.get_materia c).map (·.credits)))).sum := by
  unfold get_materia_info
  have hperm := List.perm_insertionSort (fun a b : MateriaInfo =>
    a.semester < b.semester ∨ (a.semester = b.semester ∧ a.code ≤ b.code))
    (codes.filterMap (fun c => (p.get_materia c).map (fun m =>
      { code := m.code, name := m.name, semester := m.semester,
        credits := m.credits : MateriaInfo })))
  rw [(hperm.map (·.credits)).sum_eq]
  rw [List.map_filterMap]
  simp only [Option.map_map]
  rfl

lemma info_length (p : Pensum) (hup : ∀ m ∈ p.materias, pyUpper m.code = m.code) :
    ∀ codes : List String, (∀ c ∈ codes, ∃ m ∈ p.materias, m.code = c) →
      (get_materia_info p codes).length = codes.length := by
  intro codes hcodes
  have h := (info_map_code_perm p codes hup hcodes).length_eq
  simpa using h

lemma coreqDependents_mem (p : Pensum) (q x : String)
    (h : x ∈ coreqDependents p q) : ∃ m ∈ p.materias, m.code = x := by
  simp only [coreqDependents, List.mem_flatMap, List.mem_map, List.mem_filter] at h
  rcases h with ⟨m, hm, _, _, hx⟩
  exact ⟨m, hm, hx⟩

lemma mem_info_code (p : Pensum) (codes : List String)
    (hup : ∀ m ∈ p.materias, pyUpper m.code = m.code)
    (hcodes : ∀ c ∈ codes, ∃ m ∈ p.materias, m.code = c) :
    ∀ info ∈ get_materia_info p codes, info.code ∈ codes := by
  intro info hinfo
  unfold get_materia_info at hinfo
  have hmem := (List.perm_insertionSort _ _).mem_iff.1 hinfo
  rcases List.mem_filterMap.1 hmem with ⟨c, hc, hmap⟩
  rcases resolve_code p c hup (hcodes c hc) with ⟨m', hm', hcode⟩
  rw [hm'] at hmap
  simp only [Option.map_some', Option.some.injEq] at hmap
  rw [← hmap]
  simpa using hcode ▸ hc

/-- C7 counterexample: in `cexPensum`, C is a transitive prerequisite
dependent of A (its chain runs through the directly-blocked B), yet because C
is also a direct corequisite dependent it only appears in
`corequisite_affected`: `indirectly_blocked` is empty and
`total_blocked_courses` is 1, not 2.  This refutes the claim that the
transitive prerequisite-dependents land in `indirectly_blocked`. -/
theorem c7_counterexample :
    ∃ r, simulate_course_loss "A" cexPensum = some r ∧
      r.directly_blocked.map (·.code) = ["B"] ∧
      "C" ∈ prereqDependents cexPensum "B" ∧
      "B" ∈ prereqDependents cexPensum "A" ∧
      r.indirectly_blocked = [] ∧
      r.corequisite_affected.map (·.code) = ["C"] ∧
      r.total_blocked_courses = 1 := by
  refine ⟨_, rfl, rfl, ?_, ?_, rfl, rfl, rfl⟩
  · decide
  · decide

/-- C7 as amended: `directly_blocked` holds the direct prerequisite
dependents of the lost course; `indirectly_blocked` holds further transitive
prerequisite dependents discovered by the breadth-first search, except that a
course already recorded (as the lost course, directly blocked, or
corequisite affected) is never added again nor expanded from, so a
transitive prerequisite dependent reachable only through a
corequisite-affected course is omitted; `corequisite_affected` holds the
direct corequisite dependents not already recorded; `total_blocked_courses`
is `|directly_blocked| + |indirectly_blocked|`; `total_blocked_credits` sums
each blocked course's credits exactly once; and the MATH1/MATH2/MATH3 chain
scenario behaves as described. -/
theorem c7_amended :
    (∀ (code0 : String) (p : Pensum) (r : LossResult),
      (∀ m ∈ p.materias, pyUpper m.code = m.code) →
      simulate_course_loss code0 p = some r →
      r.total_blocked_courses =
        r.directly_blocked.length + r.indirectly_blocked.length ∧
      ((r.directly_blocked ++ r.indirectly_blocked).map (·.code)).Nodup ∧
      r.total_blocked_credits =
        ((r.directly_blocked ++ r.indirectly_blocked).map (·.credits)).sum ∧
      (∀ info ∈ r.directly_blocked,
        info.code ∈ prereqDependents p (pyUpper code0)) ∧
      (∀ info ∈ r.indirectly_blocked,
        Relation.TransGen (PrereqDep p) (pyUpper code0) info.code) ∧
      (∀ info ∈ r.corequisite_affected,
        info.code ∈ coreqDependents p (pyUpper code0))) ∧
    (∃ r, simulate_course_loss "MATH1" chainPensum = some r ∧
      r.directly_blocked.map (·.code) = ["MATH2"] ∧
      r.indirectly_blocked.map (·.code) = ["MATH3"] ∧
      r.total_blocked_courses = 2) := by
  constructor
  · intro code0 p r hup hr
    unfold simulate_course_loss at hr
    dsimp only at hr
    cases hmm : p.get_materia (pyUpper code0) with
    | none => rw [hmm] at hr; simp at hr
    | some mat =>
      rw [hmm] at hr
      dsimp only at hr
      simp only [Option.some.injEq] at hr
      subst hr
      simp only []
      set code := pyUpper code0 with hcdef
      set s1 := (prereqDependents p code).foldl collectNew ([], [code]) with hs1
      set s2 := (coreqDependents p code).foldl collectNew ([], s1.2) with hs2
      set bfs := lossLoop (prereqDependents p) (p.materias.length + 2) s1.1 s2.2 []
        with hbfs
      have hsub1 : ∀ x ∈ s1.1, x ∈ prereqDependents p code := by
        intro x hx
        rcases collectNew_subset _ _ _ _ hx with h | h
        · cases h
        · exact h
      have hsub2 : ∀ x ∈ s2.1, x ∈ coreqDependents p code := by
        intro x hx
        rcases collectNew_subset _ _ _ _ hx with h | h
        · cases h
        · exact h
      have hcodes_d : ∀ c ∈ s1.1, ∃ m ∈ p.materias, m.code = c :=
        fun c hc => prereqDependents_mem p code c (hsub1 c hc)
      have hcodes_c : ∀ c ∈ s2.1, ∃ m ∈ p.materias, m.code = c :=
        fun c hc => coreqDependents_mem p code c (hsub2 c hc)
      have hsound : ∀ x ∈ bfs.2, Relation.TransGen (PrereqDep p) code x := by
        refine lossLoop_sound (prereqDependents p) _ ?_ _ _ _ _ ?_ ?_
        · intro u v hu hv
          exact hu.tail hv
        · intro x hx
          exact Relation.TransGen.single (hsub1 x hx)
        · intro x hx
          cases hx
      have hcodes_i : ∀ c ∈ bfs.2, ∃ m ∈ p.materias, m.code = c :=
        fun c hc => transGen_prereq_mem p code c (hsound c hc)
      have hvis1 : s1.2 = [code] ++ s1.1 :=
        collectNew_visited _ _ _ [code] rfl
      have hnd1 : s1.2.Nodup :=
        collectNew_nodup _ _ _ (by simp)
      have hvis2 : s2.2 = s1.2 ++ s2.1 :=
        collectNew_visited _ _ _ s1.2 (by simp)
      have hnd2 : s2.2.Nodup :=
        collectNew_nodup _ _ _ hnd1
      have hvisF : bfs.1 = s2.2 ++ bfs.2 :=
        lossLoop_visited _ _ _ _ _ s2.2 (by simp)
      have hndF : bfs.1.Nodup :=
        lossLoop_nodup _ _ _ _ _ hnd2
      have hndRaw : (s1.1 ++ bfs.2).Nodup := by
        rw [hvisF, hvis2, hvis1] at hndF
        have hsl : (s1.1 ++ bfs.2).Sublist (([code] ++ s1.1 ++ s2.1) ++ bfs.2) := by
          have h1 : (s1.1 ++ bfs.2).Sublist (s1.1 ++ (s2.1 ++ bfs.2)) :=
            List.Sublist.append_left (List.sublist_append_right s2.1 bfs.2) s1.1
          have h2 : (s1.1 ++ (s2.1 ++ bfs.2)).Sublist
              (code :: (s1.1 ++ (s2.1 ++ bfs.2))) :=
            List.sublist_cons_self code _
          simp only [List.append_assoc, List.cons_append, List.nil_append]
          exact h1.trans h2
        exact hsl.nodup (by simpa [List.append_assoc] using hndF)
      refine ⟨?_, ?_, ?_, ?_, ?_, ?_⟩
      · rw [info_length p hup s1.1 hcodes_d, info_length p hup bfs.2 hcodes_i]
      · rw [List.map_append]
        have hp : ((get_materia_info p s1.1).map (·.code) ++
            (get_materia_info p bfs.2).map (·.code)).Perm (s1.1 ++ bfs.2) :=
          (info_map_code_perm p s1.1 hup hcodes_d).append
            (info_map_code_perm p bfs.2 hup hcodes_i)
        exact hp.nodup_iff.2 hndRaw
      · rw [List.map_append, List.sum_append, info_credits_sum, info_credits_sum,
          List.filterMap_append, List.sum_append]
      · intro info hinfo
        exact hsub1 _ (mem_info_code p s1.1 hup hcodes_d info hinfo)
      · intro info hinfo
        exact hsound _ (mem_info_code p bfs.2 hup hcodes_i info hinfo)
      · intro info hinfo
        exact hsub2 _ (mem_info_code p s2.1 hup hcodes_c info hinfo)
  · exact ⟨_, rfl, rfl, rfl, rfl⟩

/-- C7 witness: the amended theorem applied to the concrete chain catalog. -/
theorem c7_witness :
    ∃ r, simulate_course_loss "MATH1" chainPensum = some r ∧
      r.total_blocked_courses =
        r.directly_blocked.length + r.indirectly_blocked.length ∧
      ((r.directly_blocked ++ r.indirectly_blocked).map (·.code)).Nodup ∧
      r.total_blocked_credits =
        ((r.directly_blocked ++ r.indirectly_blocked).map (·.credits)).sum := by
  obtain ⟨r, hr, -, -, -⟩ := c7_amended.2
  obtain ⟨h1, h2, h3, -⟩ := c7_amended.1 "MATH1" chainPensum r (by decide) hr
  exact ⟨r, hr, h1, h2, h3⟩

/-! ## C6: counting and index helpers -/

lemma count_cons_ne {a b : String} (h : a ≠ b) (l : List String) :
    (b :: l).count a = l.count a := by
  simp [List.count_cons, h]

lemma countP_split {α : Type} (l : List α) (p q : α → Bool) :
    l.countP p = l.countP (fun a => p a && q a) + l.countP (fun a => p a && !q a) := by
  induction l with
  | nil => rfl
  | cons a rest ih =>
    simp only [List.countP_cons]
    by_cases hp : p a
    · by_cases hq : q a
      · simp [hp, hq]; omega
      · simp [hp, hq]; omega
    · simp [hp]; omega

lemma graphOf_mem (E : List (String × String)) (u x : String)
    (h : x ∈ graphOf E u) : (u, x) ∈ E := by
  unfold graphOf at h
  rcases List.mem_map.1 h with ⟨e, he, hx⟩
  rcases List.mem_filter.1 he with ⟨heE, heu⟩
  have h1 : e.1 = u := by simpa using heu
  have : e = (u, x) := by
    rcases e with ⟨a, b⟩
    simp only at h1 hx
    rw [h1, hx]
  rwa [this] at heE

lemma graphOf_count (E : List (String × String)) (u v : String) :
    (graphOf E u).count v =
      E.countP (fun e => decide (e.1 = u) && decide (e.2 = v)) := by
  unfold graphOf
  induction E with
  | nil => rfl
  | cons e rest ih =>
    by_cases h1 : e.1 = u
    · by_cases h2 : e.2 = v
      · simp [List.filter_cons, List.countP_cons, h1, h2, ih, List.count_cons]
      · simp [List.filter_cons, List.countP_cons, h1, h2, ih, List.count_cons]
    · simp [List.filter_cons, List.countP_cons, h1, ih]

lemma indexOf_append_left (x a : String) :
    ∀ l : List String, x ∈ l → (l ++ [a]).indexOf x = l.indexOf x := by
  intro l
  induction l with
  | nil => intro h; cases h
  | cons b rest ih =>
    intro h
    by_cases hbx : b = x
    · simp [List.cons_append, List.indexOf_cons, hbx]
    · have hx : x ∈ rest := by
        rcases List.mem_cons.1 h with h1 | h1
        · exact absurd h1.symm hbx
        · exact h1
      have hbeq : (b == x) = false := by
        simp [hbx]
      simp [List.cons_append, List.indexOf_cons, hbeq, ih hx]

lemma indexOf_append_self (a : String) :
    ∀ l : List String, a ∉ l → (l ++ [a]).indexOf a = l.length := by
  intro l
  induction l with
  | nil => intro _; simp [List.indexOf_cons]
  | cons b rest ih =>
    intro h
    have hba : (b == a) = false := by
      simp only [beq_eq_false_iff_ne, ne_eq]
      intro hb; exact h (hb ▸ List.mem_cons_self b rest)
    have ha : a ∉ rest := fun hr => h (List.mem_cons_of_mem b hr)
    simp [List.cons_append, List.indexOf_cons, hba, ih ha]

lemma subset_of_length_le (codes order : List String) (hnd : order.Nodup)
    (hsub : ∀ c ∈ order, c ∈ codes) (hlen : codes.length ≤ order.length) :
    ∀ c ∈ codes, c ∈ order := by
  intro c hc
  by_contra hnc
  have h1 : order.toFinset ⊆ codes.toFinset.erase c := by
    intro x hx
    rw [List.mem_toFinset] at hx
    refine Finset.mem_erase.2 ⟨?_, List.mem_toFinset.2 (hsub x hx)⟩
    rintro rfl
    exact hnc hx
  have h2 := Finset.card_le_card h1
  rw [List.toFinset_card_of_nodup hnd] at h2
  have h3 : codes.toFinset.card ≤ codes.length := codes.toFinset_card_le
  have h4 : c ∈ codes.toFinset := List.mem_toFinset.2 hc
  have h5 := Finset.card_erase_of_mem h4
  have h6 : 1 ≤ codes.toFinset.card := Finset.card_pos.2 ⟨c, h4⟩
  omega

lemma pensumEdges_mem (p : Pensum) : ∀ e ∈ pensumEdges p,
    e.1 ∈ pensumCodes p ∧ e.2 ∈ pensumCodes p := by
  intro e he
  unfold pensumEdges at he
  rcases List.mem_flatMap.1 he with ⟨m, hm, hmap⟩
  rcases List.mem_map.1 hmap with ⟨pr, hpr, heq⟩
  rcases List.mem_filter.1 hpr with ⟨_, hcontains⟩
  subst heq
  constructor
  · simpa [List.elem_iff] using hcontains
  · unfold pensumCodes
    rw [List.mem_dedup]
    exact List.mem_map.2 ⟨m, hm, rfl⟩

lemma contains_eq_false_of_not_mem {l : List String} {a : String} (h : a ∉ l) :
    l.contains a = false := by
  rw [← Bool.not_eq_true]
  simpa [List.elem_iff] using h

/-! ## C6: the neighbor-decrement fold -/

lemma decStep_fold :
    ∀ (todo : List String) (d : String → Int) (q : List String),
      (∀ n ∈ todo, ((todo.count n : Nat) : Int) ≤ d n) →
      (∀ x ∈ q, d x = 0) →
      q.Nodup →
      (∀ v, (todo.foldl decStep (d, q)).1 v = d v - todo.count v) ∧
      (∀ x, x ∈ (todo.foldl decStep (d, q)).2 ↔
        x ∈ q ∨ (x ∈ todo ∧ d x = (todo.count x : Int))) ∧
      (todo.foldl decStep (d, q)).2.Nodup := by
  intro todo
  induction todo with
  | nil =>
    intro d q _ _ hnd
    exact ⟨fun v => by simp, fun x => by simp, hnd⟩
  | cons n t ih =>
    intro d q Hb Hq Hnd
    have hdn : (((n :: t).count n : Nat) : Int) ≤ d n := Hb n (List.mem_cons_self n t)
    have hcnt1 : 1 ≤ (n :: t).count n := by
      rw [List.count_cons_self]; omega
    have hdn1 : (1 : Int) ≤ d n := by
      have h0 : ((1 : Nat) : Int) ≤ (((n :: t).count n : Nat) : Int) := by
        exact_mod_cast hcnt1
      omega
    have hnq : n ∉ q := by
      intro h
      have := Hq n h
      omega
    simp only [List.foldl_cons, decStep]
    set d1 : String → Int := fun v => if v = n then d v - 1 else d v with hd1
    have hd1n : d1 n = d n - 1 := by simp [hd1]
    have hd1ne : ∀ v, v ≠ n → d1 v = d v := by
      intro v hv; simp [hd1, hv]
    have Hb2 : ∀ m ∈ t, ((t.count m : Nat) : Int) ≤ d1 m := by
      intro m hm
      by_cases hmn : m = n
      · subst hmn
        rw [hd1n]
        have h1 := Hb m (List.mem_cons_self m t)
        rw [List.count_cons_self] at h1
        push_cast at h1 ⊢
        omega
      · rw [hd1ne m hmn]
        have h1 := Hb m (List.mem_cons_of_mem n hm)
        rw [count_cons_ne hmn t] at h1
        exact h1
    by_cases hcond : d n - 1 = 0
    · rw [if_pos hcond]
      have hdneq : d n = 1 := by omega
      have hcn1 : (n :: t).count n = 1 := by
        have h2 : (((n :: t).count n : Nat) : Int) ≤ 1 := by omega
        have h3 : (n :: t).count n ≤ 1 := by exact_mod_cast h2
        omega
      have hnt : n ∉ t := by
        rw [List.count_cons_self] at hcn1
        exact List.count_eq_zero.1 (by omega)
      have Hq2 : ∀ x ∈ q ++ [n], d1 x = 0 := by
        intro x hx
        rcases List.mem_append.1 hx with hx | hx
        · have hxn : x ≠ n := fun h => hnq (h ▸ hx)
          rw [hd1ne x hxn]
          exact Hq x hx
        · simp only [List.mem_singleton] at hx
          subst hx
          rw [hd1n, hcond]
      have Hnd2 : (q ++ [n]).Nodup := by
        simp [List.nodup_append, Hnd, hnq]
      obtain ⟨A1, A2, A3⟩ := ih d1 (q ++ [n]) Hb2 Hq2 Hnd2
      refine ⟨?_, ?_, A3⟩
      · intro v
        rw [A1 v]
        by_cases hvn : v = n
        · subst hvn
          rw [hd1n, List.count_cons_self]
          push_cast
          omega
        · rw [hd1ne v hvn, count_cons_ne hvn t]
      · intro x
        rw [A2 x]
        by_cases hxn : x = n
        · subst hxn
          constructor
          · intro _
            refine Or.inr ⟨List.mem_cons_self x t, ?_⟩
            rw [hcn1, hdneq]
            simp
          · intro _
            exact Or.inl (List.mem_append.2 (Or.inr (List.mem_singleton.2 rfl)))
        · have hc : (n :: t).count x = t.count x := count_cons_ne hxn t
          rw [hd1ne x hxn]
          constructor
          · rintro (h | h)
            · rcases List.mem_append.1 h with h1 | h1
              · exact Or.inl h1
              · exact absurd (List.mem_singleton.1 h1) hxn
            · refine Or.inr ⟨List.mem_cons_of_mem n h.1, ?_⟩
              rw [hc]
              exact h.2
          · rintro (h | h)
            · exact Or.inl (List.mem_append.2 (Or.inl h))
            · rcases List.mem_cons.1 h.1 with h1 | h1
              · exact absurd h1 hxn
              · refine Or.inr ⟨h1, ?_⟩
                rw [← hc]
                exact h.2
    · rw [if_neg hcond]
      have Hq2 : ∀ x ∈ q, d1 x = 0 := by
        intro x hx
        have hxn : x ≠ n := fun h => hnq (h ▸ hx)
        rw [hd1ne x hxn]
        exact Hq x hx
      obtain ⟨A1, A2, A3⟩ := ih d1 q Hb2 Hq2 Hnd
      refine ⟨?_, ?_, A3⟩
      · intro v
        rw [A1 v]
        by_cases hvn : v = n
        · subst hvn
          rw [hd1n, List.count_cons_self]
          push_cast
          omega
        · rw [hd1ne v hvn, count_cons_ne hvn t]
      · intro x
        rw [A2 x]
        by_cases hxn : x = n
        · subst hxn
          have hcc : (x :: t).count x = t.count x + 1 := List.count_cons_self x t
          constructor
          · rintro (h | h)
            · exact Or.inl h
            · refine Or.inr ⟨List.mem_cons_self x t, ?_⟩
              rw [hcc]
              rw [hd1n] at h
              push_cast
              omega
          · rintro (h | h)
            · exact Or.inl h
            · have h2 := h.2
              rw [hcc] at h2
              have hxt : x ∈ t := by
                by_contra hxt
                have h0 : t.count x = 0 := List.count_eq_zero.2 hxt
                rw [h0] at h2
                simp at h2
                omega
              refine Or.inr ⟨hxt, ?_⟩
              rw [hd1n]
              push_cast at h2 ⊢
              omega
        · have hc : (n :: t).count x = t.count x := count_cons_ne hxn t
          rw [hd1ne x hxn]
          constructor
          · rintro (h | h)
            · exact Or.inl h
            · refine Or.inr ⟨List.mem_cons_of_mem n h.1, ?_⟩
              rw [hc]
              exact h.2
          · rintro (h | h)
            · exact Or.inl h
            · rcases List.mem_cons.1 h.1 with h1 | h1
              · exact absurd h1 hxn
              · refine Or.inr ⟨h1, ?_⟩
                rw [← hc]
                exact h.2

/-! ## C6: the Kahn loop invariant -/

lemma contains_eq_false_iff (l : List String) (x : String) :
    l.contains x = false ↔ x ∉ l := by
  rw [← Bool.not_eq_true]
  simp [List.elem_iff]

lemma kahn_master (E : List (String × String)) (codes : List String)
    (HE : ∀ e ∈ E, e.1 ∈ codes ∧ e.2 ∈ codes) :
    ∀ (fuel : Nat) (queue : List String) (indeg : String → Int) (order : List String),
      KInv E codes queue indeg order →
      codes.length ≤ fuel + order.length →
      KFinal E codes (kahnLoop (graphOf E) fuel queue indeg order).1
        (kahnLoop (graphOf E) fuel queue indeg order).2 := by
  intro fuel
  induction fuel with
  | zero =>
    intro queue indeg order hinv hfuel
    simp only [kahnLoop]
    have hall : ∀ c ∈ codes, c ∈ order :=
      subset_of_length_le codes order hinv.ordNodup hinv.ordSub (by omega)
    exact ⟨hinv.ordNodup, hinv.ordSub, hinv.ideg,
      fun v hv hnv => absurd (hall v hv) hnv, hinv.ordZero, hinv.topo⟩
  | succ nfuel ih =>
    intro queue indeg order hinv hfuel
    cases queue with
    | nil =>
      simp only [kahnLoop]
      refine ⟨hinv.ordNodup, hinv.ordSub, hinv.ideg, ?_, hinv.ordZero, hinv.topo⟩
      intro v hv hnv h0
      exact absurd (hinv.complete v hv hnv h0) (List.not_mem_nil v)
    | cons current rest =>
      have hcur := hinv.qSub current (List.mem_cons_self current rest)
      have hcur0 : indeg current = 0 :=
        hinv.qZero current (List.mem_cons_self current rest)
      have hrestN : rest.Nodup := (List.nodup_cons.1 hinv.qNodup).2
      have hcurq : current ∉ rest := (List.nodup_cons.1 hinv.qNodup).1
      set ns := graphOf E current with hns
      have hcount : ∀ v, ns.count v =
          E.countP (fun e => decide (e.1 = current) && decide (e.2 = v)) :=
        fun v => graphOf_count E current v
      have hcontc : order.contains current = false :=
        contains_eq_false_of_not_mem hcur.2
      have HbMono : ∀ v, ns.count v ≤
          E.countP (fun e => decide (e.2 = v) && !(order.contains e.1)) := by
        intro v
        rw [hcount v]
        apply List.countP_mono_left
        intro e _ hb
        simp only [Bool.and_eq_true, decide_eq_true_eq] at hb
        simp only [Bool.and_eq_true, decide_eq_true_eq]
        refine ⟨hb.2, ?_⟩
        rw [hb.1, hcontc]
        rfl
      have Hb : ∀ m ∈ ns, ((ns.count m : Nat) : Int) ≤ indeg m := by
        intro m _
        rw [hinv.ideg m]
        exact_mod_cast HbMono m
      have Hq : ∀ x ∈ rest, indeg x = 0 :=
        fun x hx => hinv.qZero x (List.mem_cons_of_mem current hx)
      obtain ⟨F1, F2, F3⟩ := decStep_fold ns indeg rest Hb Hq hrestN
      have hns_pos : ∀ x ∈ ns, (1 : Int) ≤ indeg x := by
        intro x hx
        have h1 : 0 < ns.count x := List.count_pos_iff.2 hx
        have h2 := Hb x hx
        have h3 : ((1:Nat) : Int) ≤ ((ns.count x : Nat) : Int) := by
          exact_mod_cast h1
        omega
      have hns_nor : ∀ x ∈ ns, x ∉ order := by
        intro x hx h
        have h1 := hinv.ordZero x h
        have h2 := hns_pos x hx
        omega
      have hns_nrest : ∀ x ∈ ns, x ∉ rest := by
        intro x hx h
        have h1 := Hq x h
        have h2 := hns_pos x hx
        omega
      have hns_ncur : ∀ x ∈ ns, x ≠ current := by
        intro x hx h
        have h2 := hns_pos x hx
        rw [h, hcur0] at h2
        omega
      have hns_codes : ∀ x ∈ ns, x ∈ codes :=
        fun x hx => (HE (current, x) (graphOf_mem E current x hx)).2
      simp only [kahnLoop]
      apply ih
      · refine ⟨?_, ?_, F3, ?_, ?_, ?_, ?_, ?_, ?_⟩
        · rw [List.nodup_append]
          exact ⟨hinv.ordNodup, List.nodup_singleton current,
            fun a ha hmem => hcur.2 ((List.mem_singleton.1 hmem) ▸ ha)⟩
        · intro c hc
          rcases List.mem_append.1 hc with h | h
          · exact hinv.ordSub c h
          · rw [List.mem_singleton.1 h]; exact hcur.1
        · intro c hc
          rcases (F2 c).1 hc with h | h
          · have h1 := hinv.qSub c (List.mem_cons_of_mem current h)
            have hne : c ≠ current := fun he => hcurq (he ▸ h)
            refine ⟨h1.1, ?_⟩
            intro hmem
            rcases List.mem_append.1 hmem with h2 | h2
            · exact h1.2 h2
            · exact hne (List.mem_singleton.1 h2)
          · refine ⟨hns_codes c h.1, ?_⟩
            intro hmem
            rcases List.mem_append.1 hmem with h2 | h2
            · exact hns_nor c h.1 h2
            · exact hns_ncur c h.1 (List.mem_singleton.1 h2)
        · intro v
          rw [F1 v, hinv.ideg v]
          have hsplit := countP_split E
            (fun e => decide (e.2 = v) && !(order.contains e.1))
            (fun e => decide (e.1 = current))
          have hA : E.countP (fun e => (decide (e.2 = v) && !(order.contains e.1)) &&
              decide (e.1 = current)) = ns.count v := by
            rw [hcount v]
            apply List.countP_congr
            intro e _
            simp only [Bool.and_eq_true, decide_eq_true_eq]
            constructor
            · rintro ⟨⟨h2, _⟩, h1⟩
              exact ⟨h1, h2⟩
            · rintro ⟨h1, h2⟩
              refine ⟨⟨h2, ?_⟩, h1⟩
              rw [h1, hcontc]
              rfl
          have hB : E.countP (fun e => (decide (e.2 = v) && !(order.contains e.1)) &&
              !(decide (e.1 = current))) =
              E.countP (fun e => decide (e.2 = v) &&
                !((order ++ [current]).contains e.1)) := by
            apply List.countP_congr
            intro e _
            simp only [Bool.and_eq_true, decide_eq_true_eq, Bool.not_eq_true',
              contains_eq_false_iff, decide_eq_false_iff_not, List.mem_append,
              List.mem_singleton]
            tauto
          rw [hsplit, hA, hB]
          push_cast
          omega
        · intro x hx
          rcases (F2 x).1 hx with h | h
          · have h0 := Hq x h
            have hcnt0 : ns.count x = 0 := by
              by_contra hne
              exact hns_nrest x (List.count_pos_iff.1 (Nat.pos_of_ne_zero hne)) h
            rw [F1 x, h0, hcnt0]
            simp
          · rw [F1 x, h.2]
            simp
        · intro v hv
          have hv0 : indeg v = 0 := by
            rcases List.mem_append.1 hv with h | h
            · exact hinv.ordZero v h
            · rw [List.mem_singleton.1 h]; exact hcur0
          have hcnt0 : ns.count v = 0 := by
            by_contra hne
            have h2 := hns_pos v (List.count_pos_iff.1 (Nat.pos_of_ne_zero hne))
            omega
          rw [F1 v, hv0, hcnt0]
          simp
        · intro v hv hnv h0
          by_cases hzero : indeg v = 0
          · have hq := hinv.complete v hv
              (fun h => hnv (List.mem_append.2 (Or.inl h))) hzero
            rcases List.mem_cons.1 hq with h | h
            · exact absurd (List.mem_append.2 (Or.inr (by simp [h]))) hnv
            · exact (F2 v).2 (Or.inl h)
          · have hnonneg : (0:Int) ≤ indeg v := by
              rw [hinv.ideg v]
              exact_mod_cast Nat.zero_le _
            have hF := F1 v
            rw [hF] at h0
            have hcnt : ((ns.count v : Nat) : Int) = indeg v := by omega
            have hvns : v ∈ ns := by
              apply List.count_pos_iff.1
              by_contra hc
              have h1 : ns.count v = 0 := by omega
              rw [h1] at hcnt
              simp at hcnt
              omega
            exact (F2 v).2 (Or.inr ⟨hvns, hcnt.symm⟩)
        · intro e he hmem
          rcases List.mem_append.1 hmem with h2 | h2
          · obtain ⟨h1mem, h1lt⟩ := hinv.topo e he h2
            refine ⟨List.mem_append.2 (Or.inl h1mem), ?_⟩
            rw [indexOf_append_left e.1 current order h1mem,
              indexOf_append_left e.2 current order h2]
            exact h1lt
          · have he2 : e.2 = current := List.mem_singleton.1 h2
            have h0 : E.countP (fun e => decide (e.2 = current) &&
                !(order.contains e.1)) = 0 := by
              have h1 := hinv.ideg current
              rw [hcur0] at h1
              exact_mod_cast h1.symm
            have hforall := List.countP_eq_zero.1 h0
            have hcur1 : e.1 ∈ order := by
              by_contra hno
              have h3 := hforall e he
              simp [he2, contains_eq_false_of_not_mem hno] at h3
              exact hno h3
            refine ⟨List.mem_append.2 (Or.inl hcur1), ?_⟩
            rw [indexOf_append_left e.1 current order hcur1, he2,
              indexOf_append_self current order hcur.2]
            exact List.indexOf_lt_length.2 hcur1
      · simp only [List.length_append, List.length_cons, List.length_singleton]
        omega

lemma kahn_init (p : Pensum) :
    KInv (pensumEdges p) (pensumCodes p)
      ((pensumCodes p).filter (fun c => initIndeg (pensumEdges p) c = 0))
      (initIndeg (pensumEdges p)) [] := by
  refine ⟨List.nodup_nil, by simp, ?_, ?_, ?_, ?_, by simp, ?_, by simp⟩
  · exact (List.nodup_dedup _).filter _
  · intro c hc
    exact ⟨(List.mem_filter.1 hc).1, List.not_mem_nil c⟩
  · intro v
    unfold initIndeg
    congr 1
    rw [List.count_eq_countP, List.countP_map]
    apply List.countP_congr
    intro e _
    simp [Function.comp]
  · intro v hv
    exact of_decide_eq_true (List.mem_filter.1 hv).2
  · intro v hv _ h0
    exact List.mem_filter.2 ⟨hv, by simp [h0]⟩

lemma kahnRun_final (p : Pensum) :
    KFinal (pensumEdges p) (pensumCodes p) (kahnRun p).1 (kahnRun p).2 :=
  kahn_master (pensumEdges p) (pensumCodes p) (pensumEdges_mem p)
    (pensumCodes p).length
    ((pensumCodes p).filter (fun c => initIndeg (pensumEdges p) c = 0))
    (initIndeg (pensumEdges p)) [] (kahn_init p) (by simp)

lemma topo_index_lt (p : Pensum) (order : List String)
    (htopo : ∀ e ∈ pensumEdges p, e.2 ∈ order →
      e.1 ∈ order ∧ order.indexOf e.1 < order.indexOf e.2)
    (hall : ∀ c ∈ pensumCodes p, c ∈ order) :
    ∀ u v, Relation.TransGen (EdgeRel p) u v →
      order.indexOf u < order.indexOf v := by
  intro u v h
  induction h with
  | single h1 =>
    exact (htopo _ h1 (hall _ (pensumEdges_mem p _ h1).2)).2
  | tail _ h1 ihlt =>
    exact lt_trans ihlt (htopo _ h1 (hall _ (pensumEdges_mem p _ h1).2)).2

/-- C6: a catalog whose combined prerequisite/corequisite graph has a cycle
is reported by `validate_pensum_structure` as invalid, with
`detect_circular_dependencies` returning a non-empty witness of at most five
codes, each a still-unprocessed node left by Kahn's algorithm (positive
residual in-degree, not in the processing order); and an acyclic catalog
yields no cycle report. -/
theorem c6_cycle_detection (p : Pensum) :
    (HasCycle p →
      ∃ w, detect_circular_dependencies p = some w ∧ w ≠ [] ∧ w.length ≤ 5 ∧
        (∀ c ∈ w, c ∈ pensumCodes p ∧ c ∉ (kahnRun p).1 ∧ 0 < (kahnRun p).2 c) ∧
        (validate_pensum_structure p).1 = false) ∧
    (¬HasCycle p → detect_circular_dependencies p = none) := by
  have hfin := kahnRun_final p
  have HE := pensumEdges_mem p
  constructor
  · rintro ⟨v, hv⟩
    have hnotall : ¬(∀ c ∈ pensumCodes p, c ∈ (kahnRun p).1) := by
      intro hall
      exact lt_irrefl _ (topo_index_lt p (kahnRun p).1 hfin.topo hall v v hv)
    have hlen : (kahnRun p).1.length ≠ (pensumCodes p).length := by
      intro heq
      exact hnotall (subset_of_length_le _ _ hfin.ordNodup hfin.ordSub
        (le_of_eq heq.symm))
    obtain ⟨c, hc, hnc⟩ : ∃ c ∈ pensumCodes p, c ∉ (kahnRun p).1 := by
      by_contra h
      push_neg at h
      exact hnotall h
    have hpos : (0:Int) < (kahnRun p).2 c := by
      have h1 := hfin.unproc c hc hnc
      have h2 : (0:Int) ≤ (kahnRun p).2 c := by
        rw [hfin.ideg c]
        exact_mod_cast Nat.zero_le _
      omega
    have hcrem : c ∈ (pensumCodes p).filter (fun x => (kahnRun p).2 x > 0) :=
      List.mem_filter.2 ⟨hc, by simpa using hpos⟩
    have hremne : (pensumCodes p).filter (fun x => (kahnRun p).2 x > 0) ≠ [] :=
      List.ne_nil_of_mem hcrem
    have hrem_isEmpty : ((pensumCodes p).filter
        (fun x => (kahnRun p).2 x > 0)).isEmpty = false := by
      rw [← Bool.not_eq_true, List.isEmpty_iff]
      exact hremne
    have hdet : detect_circular_dependencies p =
        some (((pensumCodes p).filter (fun x => (kahnRun p).2 x > 0)).take 5) := by
      unfold detect_circular_dependencies
      rw [if_pos hlen, if_pos (by rw [hrem_isEmpty]; rfl)]
    refine ⟨_, hdet, ?_, List.length_take_le 5 _, ?_, ?_⟩
    · obtain ⟨x, xs, hxs⟩ := List.exists_cons_of_ne_nil hremne
      rw [hxs]
      simp
    · intro c0 hc0
      have hc0r := List.mem_of_mem_take hc0
      have hc0f := List.mem_filter.1 hc0r
      have hc0pos : (0:Int) < (kahnRun p).2 c0 := by
        have := hc0f.2
        simpa using this
      refine ⟨hc0f.1, ?_, hc0pos⟩
      intro hmem
      have := hfin.ordZero c0 hmem
      omega
    · unfold validate_pensum_structure
      rw [hdet]
      simp
  · intro hnc
    have hall : ∀ c ∈ pensumCodes p, c ∈ (kahnRun p).1 := by
      by_contra h
      push_neg at h
      obtain ⟨c0, hc0, hnc0⟩ := h
      have hpred : ∀ v, v ∈ pensumCodes p ∧ v ∉ (kahnRun p).1 →
          ∃ u, (u ∈ pensumCodes p ∧ u ∉ (kahnRun p).1) ∧ EdgeRel p u v := by
        rintro v ⟨hv, hnv⟩
        have h1 := hfin.unproc v hv hnv
        rw [hfin.ideg v] at h1
        have h2 : (pensumEdges p).countP
            (fun e => decide (e.2 = v) && !((kahnRun p).1.contains e.1)) ≠ 0 := by
          intro h0
          rw [h0] at h1
          simp at h1
        have h3 : ¬(∀ a ∈ pensumEdges p,
            ¬((decide (a.2 = v) && !((kahnRun p).1.contains a.1)) = true)) := by
          intro hallz
          exact h2 (List.countP_eq_zero.2 hallz)
        push_neg at h3
        obtain ⟨e, he, hpe⟩ := h3
        simp only [Bool.and_eq_true, decide_eq_true_eq, Bool.not_eq_true',
          contains_eq_false_iff] at hpe
        obtain ⟨he2, he1⟩ := hpe
        refine ⟨e.1, ⟨(HE e he).1, he1⟩, ?_⟩
        show (e.1, v) ∈ pensumEdges p
        rw [← he2]
        exact he
      have hpredT : ∀ v, ∃ u, (v ∈ pensumCodes p ∧ v ∉ (kahnRun p).1) →
          ((u ∈ pensumCodes p ∧ u ∉ (kahnRun p).1) ∧ EdgeRel p u v) := by
        intro v
        by_cases hv : v ∈ pensumCodes p ∧ v ∉ (kahnRun p).1
        · obtain ⟨u, hu⟩ := hpred v hv
          exact ⟨u, fun _ => hu⟩
        · exact ⟨v, fun h => absurd h hv⟩
      choose f hf using hpredT
      set g : Nat → String := fun k => f^[k] c0 with hg
      have hgstep : ∀ k, g (k + 1) = f (g k) := by
        intro k
        simp [hg, Function.iterate_succ_apply']
      have hginv : ∀ k, g k ∈ pensumCodes p ∧ g k ∉ (kahnRun p).1 := by
        intro k
        induction k with
        | zero => exact ⟨hc0, hnc0⟩
        | succ n ihn =>
          rw [hgstep n]
          exact (hf (g n) ihn).1
      have hedge : ∀ k, EdgeRel p (g (k + 1)) (g k) := by
        intro k
        rw [hgstep k]
        exact (hf (g k) (hginv k)).2
      have hmaps : ∀ i ∈ Finset.range ((pensumCodes p).length + 1),
          g i ∈ (pensumCodes p).toFinset :=
        fun i _ => List.mem_toFinset.2 (hginv i).1
      have hcard : (pensumCodes p).toFinset.card <
          (Finset.range ((pensumCodes p).length + 1)).card := by
        rw [Finset.card_range]
        have := (pensumCodes p).toFinset_card_le
        omega
      obtain ⟨i, _, j, _, hne, heq⟩ :=
        Finset.exists_ne_map_eq_of_card_lt_of_maps_to hcard hmaps
      have hchain : ∀ b a : Nat, a < b →
          Relation.TransGen (EdgeRel p) (g b) (g a) := by
        intro b
        induction b with
        | zero => intro a ha; exact absurd ha (Nat.not_lt_zero a)
        | succ nb ihb =>
          intro a ha
          rcases Nat.lt_succ_iff_lt_or_eq.1 ha with h | h
          · exact Relation.TransGen.head (hedge nb) (ihb a h)
          · rw [h]
            exact Relation.TransGen.single (hedge nb)
      rcases Nat.lt_or_ge i j with hij | hij
      · have hcyc := hchain j i hij
        rw [heq] at hcyc
        exact hnc ⟨g j, hcyc⟩
      · have hij2 : j < i := lt_of_le_of_ne hij (fun h => hne h.symm)
        have hcyc := hchain i j hij2
        rw [heq] at hcyc
        exact hnc ⟨g j, hcyc⟩
    have hlen : (kahnRun p).1.length = (pensumCodes p).length := by
      have h1 : (kahnRun p).1.toFinset = (pensumCodes p).toFinset := by
        apply Finset.Subset.antisymm
        · intro x hx
          exact List.mem_toFinset.2 (hfin.ordSub x (List.mem_toFinset.1 hx))
        · intro x hx
          exact List.mem_toFinset.2 (hall x (List.mem_toFinset.1 hx))
      have h2 := congrArg Finset.card h1
      have hnodup : (pensumCodes p).Nodup := List.nodup_dedup _
      rw [List.toFinset_card_of_nodup hfin.ordNodup,
        List.toFinset_card_of_nodup hnodup] at h2
      exact h2
    unfold detect_circular_dependencies
    rw [if_neg (fun h => h hlen)]

/-- C6 witness: the cyclic three-course catalog triggers the theorem's cycle
branch. -/
theorem c6_witness :
    ∃ w, detect_circular_dependencies cycPensum = some w ∧ w ≠ [] ∧
      w.length ≤ 5 ∧
      (∀ c ∈ w, c ∈ pensumCodes cycPensum ∧ c ∉ (kahnRun cycPensum).1 ∧
        0 < (kahnRun cycPensum).2 c) ∧
      (validate_pensum_structure cycPensum).1 = false := by
  have h1 : EdgeRel cycPensum "A" "B" := by
    show ("A", "B") ∈ pensumEdges cycPensum
    decide
  have h2 : EdgeRel cycPensum "B" "C" := by
    show ("B", "C") ∈ pensumEdges cycPensum
    decide
  have h3 : EdgeRel cycPensum "C" "A" := by
    show ("C", "A") ∈ pensumEdges cycPensum
    decide
  exact (c6_cycle_detection cycPensum).1
    ⟨"A", Relation.TransGen.head h1
      (Relation.TransGen.head h2 (Relation.TransGen.single h3))⟩

end UniApp
